import Mathlib

/-!
acipatch: streaming rewrite of an App Container Image

A shallow embedding of `src/main.go` (`getIsolatorStr`, `patchManifest`,
`aciPatch`) and proofs about it.

Conventions of the embedding

* A Go `string` is a Lean `String` (a sequence of Unicode characters); a Go
  `[]byte` is a `List UInt8`.  Where the program hands the bytes of a string it
  has just built to a JSON decoder (`[]byte(isolatorStr)`), the decoder is
  given the characters of the string.
* Integer header fields are `Int`.  The one the program computes,
  `hdr.Size = int64(len(new_bytes))`, is the length of a list, so no
  conversion wraps.
* The two process-wide flag variables `*flagName` and `*flagCaps` are the
  fields of an explicit `Flags` value.
* `patchManifest` mutates the manifest it is handed and returns an error; the
  embedding returns the manifest as it is after the call together with the
  error.
* The gzip and tar layers are represented by what they carry: standard input
  is the list of archive entries that `tr.Next()` yields before `io.EOF`, and
  standard output is the list of entries handed to `tw.WriteHeader` and
  `tw.Write`/`io.Copy`.  Failures of the transport itself (a short read, a
  failed write) are outside the model.
* Functions of the Go standard library and of `github.com/appc/spec` that the
  program calls are not part of this repository; they are modelled here from
  their documented behaviour, each under its Go name.
-/

set_option maxRecDepth 100000

namespace Acipatch

/-! ## Errors -/

/-- Go `error` values that the program can return. -/
inductive Error where
  /-- An error made with `fmt.Errorf` or `errors.New`, with its message. -/
  | errorf (msg : String)
  /-- A `types.ACNameError`, the error of the name-syntax check. -/
  | acName (msg : String)
  /-- An error reported by `encoding/json`. -/
  | json (msg : String)
  deriving DecidableEq, Repr

/-- Equality of results is decidable. -/
instance instDecidableEqExcept {ε α : Type} [DecidableEq ε] [DecidableEq α] :
    DecidableEq (Except ε α)
  | .ok a, .ok b =>
    if h : a = b then isTrue (by rw [h]) else isFalse (fun h1 => h (Except.ok.inj h1))
  | .error a, .error b =>
    if h : a = b then isTrue (by rw [h]) else isFalse (fun h1 => h (Except.error.inj h1))
  | .ok _, .error _ => isFalse (fun h => Except.noConfusion h)
  | .error _, .ok _ => isFalse (fun h => Except.noConfusion h)

/-! ## `strings.Split`, `strings.Join` -/

/-- Pieces of a character sequence between occurrences of `sep`. -/
def splitChars (sep : Char) : List Char → List (List Char)
  | [] => [[]]
  | c :: cs =>
    if c = sep then [] :: splitChars sep cs
    else
      match splitChars sep cs with
      | [] => [[c]]
      | w :: ws => (c :: w) :: ws

/-- Go `strings.Split(s, sep)` for a one-character separator, the only use the
program makes of it (`strings.Split(*flagCaps, ",")`). -/
def Split (s : String) (sep : Char) : List String :=
  (splitChars sep s.data).map String.mk

/-- Character-level `strings.Join`. -/
def joinChars (sep : List Char) : List (List Char) → List Char
  | [] => []
  | [a] => a
  | a :: b :: rest => a ++ sep ++ joinChars sep (b :: rest)

/-- Go `strings.Join(a, sep)`. -/
def Join (a : List String) (sep : String) : String :=
  String.mk (joinChars sep.data (a.map String.data))

/-! ## `encoding/json`: the part of the decoder the program exercises -/

/-- JSON insignificant whitespace. -/
def isSpace (c : Char) : Bool := c = ' ' || c = '\t' || c = '\r' || c = '\n'

/-- Drop leading JSON whitespace. -/
def skipSpace : List Char → List Char
  | [] => []
  | c :: cs => if isSpace c then skipSpace cs else c :: cs

/-- Value of a hexadecimal digit. -/
def hexVal (c : Char) : Option Nat :=
  if '0' ≤ c ∧ c ≤ '9' then some (c.toNat - '0'.toNat)
  else if 'a' ≤ c ∧ c ≤ 'f' then some (c.toNat - 'a'.toNat + 10)
  else if 'A' ≤ c ∧ c ≤ 'F' then some (c.toNat - 'A'.toNat + 10)
  else none

/-- Character denoted by a single-letter JSON escape. -/
def unescape (e : Char) : Option Char :=
  if e = '"' then some '"'
  else if e = '\\' then some '\\'
  else if e = '/' then some '/'
  else if e = 'b' then some (Char.ofNat 8)
  else if e = 'f' then some (Char.ofNat 12)
  else if e = 'n' then some '\n'
  else if e = 'r' then some '\r'
  else if e = 't' then some '\t'
  else none

/-- The Unicode replacement character, Go `unicode.ReplacementChar`. -/
def replacementChar : Char := Char.ofNat 0xFFFD

/-- One decoded unit of a string literal: a character, or the value of a
backslash-u escape that lies in the UTF-16 surrogate range. -/
inductive Unit16 where
  /-- A decoded character. -/
  | char (c : Char)
  /-- An escaped surrogate code unit. -/
  | surrogate (r : Nat)
  deriving DecidableEq, Repr

/-- Unit written for the backslash-u escape of value `r`. -/
def escapeUnit (r : Nat) : Unit16 :=
  if 0xD800 ≤ r ∧ r < 0xE000 then .surrogate r else .char (Char.ofNat r)

/-- Go `unquote`, surrogate handling: an escaped high surrogate directly
followed by an escaped low surrogate is one character; any other escaped
surrogate becomes the replacement character. -/
def combineSurrogates : List Unit16 → List Char
  | [] => []
  | .char c :: rest => c :: combineSurrogates rest
  | .surrogate r :: .surrogate r2 :: rest =>
    if r < 0xDC00 ∧ 0xDC00 ≤ r2 then
      Char.ofNat ((r - 0xD800) * 0x400 + (r2 - 0xDC00) + 0x10000) :: combineSurrogates rest
    else replacementChar :: combineSurrogates (.surrogate r2 :: rest)
  | .surrogate _ :: rest => replacementChar :: combineSurrogates rest

/-- Position inside a string literal, as in the scanner of `encoding/json`:
in plain text, right after a backslash, or inside a backslash-u escape with
`left` hexadecimal digits still to read and `acc` the value read so far. -/
inductive StrState where
  | plain
  | escape
  | hex (left : Nat) (acc : Nat)
  deriving DecidableEq, Repr

/-- Put a unit in front of a scanned remainder. -/
def consUnit (u : Unit16) :
    Option (List Unit16 × List Char) → Option (List Unit16 × List Char)
  | some (s, rest) => some (u :: s, rest)
  | none => none

/-- Read the body of a JSON string literal whose opening quote has been
consumed: its decoded units and the input after the closing quote.  A raw
control character, an unknown escape, a bad hexadecimal digit or a missing
closing quote is an error. -/
def scanUnits : StrState → List Char → Option (List Unit16 × List Char)
  | _, [] => none
  | .plain, c :: cs =>
    if c = '"' then some ([], cs)
    else if c = '\\' then scanUnits .escape cs
    else if c.toNat < 0x20 then none
    else consUnit (.char c) (scanUnits .plain cs)
  | .escape, e :: cs =>
    if e = 'u' then scanUnits (.hex 4 0) cs
    else
      match unescape e with
      | none => none
      | some ch => consUnit (.char ch) (scanUnits .plain cs)
  | .hex left acc, h :: cs =>
    match hexVal h with
    | none => none
    | some v =>
      if left ≤ 1 then consUnit (escapeUnit (acc * 16 + v)) (scanUnits .plain cs)
      else scanUnits (.hex (left - 1) (acc * 16 + v)) cs

/-- Read a JSON string literal whose opening quote has been consumed: the
decoded characters and the input after the closing quote. -/
def scanString (cs : List Char) : Option (List Char × List Char) :=
  match scanUnits .plain cs with
  | some (us, rest) => some (combineSurrogates us, rest)
  | none => none

/-- Split off a run of decimal digits. -/
def spanDigits : List Char → List Char × List Char
  | [] => ([], [])
  | c :: cs =>
    if c.isDigit then ((spanDigits cs).1.cons c, (spanDigits cs).2) else ([], c :: cs)

/-- Read a JSON number (`-? int frac? exp?`); the input after it. -/
def scanNumber (cs : List Char) : Option (List Char) :=
  let cs := match cs with
    | '-' :: r => r
    | r => r
  let afterInt : Option (List Char) :=
    match cs with
    | '0' :: r => some r
    | c :: _ => if c.isDigit then some (spanDigits cs).2 else none
    | [] => none
  match afterInt with
  | none => none
  | some r =>
    let afterFrac : Option (List Char) :=
      match r with
      | '.' :: r1 => if (spanDigits r1).1 = [] then none else some (spanDigits r1).2
      | _ => some r
    match afterFrac with
    | none => none
    | some r2 =>
      match r2 with
      | e :: r3 =>
        if e = 'e' ∨ e = 'E' then
          let r4 := match r3 with
            | '+' :: t => t
            | '-' :: t => t
            | t => t
          if (spanDigits r4).1 = [] then none else some (spanDigits r4).2
        else some r2
      | [] => some r2

/-- What the scanner is reading. -/
inductive Mode where
  /-- One value, starting at its first character. -/
  | value
  /-- The elements of an array, from the first character of an element. -/
  | elems
  /-- The members of an object, from the opening quote of a key. -/
  | members
  deriving DecidableEq, Repr

/-- The consumed prefix of `cs`, given what is left. -/
def consumed (cs rest : List Char) : List Char := cs.take (cs.length - rest.length)

/-- Remove the prefix `p` from the input, if it is there. -/
def dropPrefix : List Char → List Char → Option (List Char)
  | [], cs => some cs
  | _ :: _, [] => none
  | p :: ps, c :: cs => if p = c then dropPrefix ps cs else none

/-- Result of a scan that yields no parts. -/
def noParts (r : Option (List Char)) : Option (List (List Char × List Char) × List Char) :=
  match r with
  | some rest => some ([], rest)
  | none => none

/-- Recursive-descent JSON scanner.  In mode `value` it checks one value and
returns the input after it.  In mode `elems` it also returns the raw text of
each element (with an empty key); in mode `members`, each key with the raw
text of its value, and the input after the closing bracket.  The first
argument bounds the number of nested calls; `parse` starts the scan with the
length of the input. -/
def scan : Nat → Mode → List Char → Option (List (List Char × List Char) × List Char)
  | 0, _, _ => none
  | _ + 1, _, [] => none
  | n + 1, .value, c :: cs1 =>
    if c = '"' then noParts ((scanString cs1).map Prod.snd)
    else if c = '[' then
      match skipSpace cs1 with
      | [] => none
      | d :: r =>
        if d = ']' then some ([], r)
        else noParts ((scan n .elems (d :: r)).map Prod.snd)
    else if c = '{' then
      match skipSpace cs1 with
      | [] => none
      | d :: r =>
        if d = '}' then some ([], r)
        else noParts ((scan n .members (d :: r)).map Prod.snd)
    else if c = 't' then noParts (dropPrefix ['r', 'u', 'e'] cs1)
    else if c = 'f' then noParts (dropPrefix ['a', 'l', 's', 'e'] cs1)
    else if c = 'n' then noParts (dropPrefix ['u', 'l', 'l'] cs1)
    else noParts (scanNumber (c :: cs1))
  | n + 1, .elems, c :: cs1 =>
    match scan n .value (c :: cs1) with
    | none => none
    | some (_, rest) =>
      match skipSpace rest with
      | [] => none
      | d :: r =>
        if d = ',' then
          match scan n .elems (skipSpace r) with
          | some (more, rest2) => some (([], consumed (c :: cs1) rest) :: more, rest2)
          | none => none
        else if d = ']' then some ([([], consumed (c :: cs1) rest)], r)
        else none
  | n + 1, .members, q :: cs1 =>
    if q = '"' then
      match scanString cs1 with
      | none => none
      | some (key, afterKey) =>
        match skipSpace afterKey with
        | [] => none
        | col :: r0 =>
          if col = ':' then
            match scan n .value (skipSpace r0) with
            | none => none
            | some (_, rest) =>
              match skipSpace rest with
              | [] => none
              | d :: r =>
                if d = ',' then
                  match scan n .members (skipSpace r) with
                  | some (more, rest2) =>
                    some ((key, consumed (skipSpace r0) rest) :: more, rest2)
                  | none => none
                else if d = '}' then some ([(key, consumed (skipSpace r0) rest)], r)
                else none
          else none
    else none

/-- Kind of a top-level JSON text, with its parts in raw form. -/
inductive Parsed where
  /-- An object: its members in input order, key and raw value text. -/
  | object (members : List (List Char × List Char))
  /-- An array: the raw text of its elements in order. -/
  | array (elems : List (List Char))
  /-- A string literal: its decoded characters. -/
  | string (s : List Char)
  /-- The literal `null`. -/
  | null
  /-- A number or a boolean. -/
  | other
  deriving DecidableEq, Repr

/-- Check that `text` is exactly one JSON value surrounded by optional
whitespace (Go `checkValid`) and expose its top level.  `none` is a syntax
error. -/
def parse (text : List Char) : Option Parsed :=
  let cs := skipSpace text
  match scan (cs.length + 1) .value cs with
  | none => none
  | some (_, rest) =>
    if skipSpace rest ≠ [] then none
    else
      match cs with
      | [] => none
      | c :: cs1 =>
        if c = '"' then
          match scanString cs1 with
          | some (s, _) => some (.string s)
          | none => none
        else if c = '[' then
          match skipSpace cs1 with
          | [] => none
          | d :: r =>
            if d = ']' then some (.array [])
            else
              match scan cs.length .elems (d :: r) with
              | some (es, _) => some (.array (es.map Prod.snd))
              | none => none
        else if c = '{' then
          match skipSpace cs1 with
          | [] => none
          | d :: r =>
            if d = '}' then some (.object [])
            else
              match scan cs.length .members (d :: r) with
              | some (ms, _) => some (.object ms)
              | none => none
        else if c = 'n' then some .null
        else some .other

/-! ## `path/filepath.Clean` (Unix) -/

/-- Index to which the output buffer is cut back for a `..` element: the Go
loop `for out.w > dotdot && out.index(out.w) != '/' { out.w-- }`. -/
def backtrackIdx (out : List Char) (dotdot : Nat) : Nat → Nat
  | 0 => 0
  | w + 1 =>
    if w + 1 > dotdot ∧ out.getD (w + 1) '/' ≠ '/' then backtrackIdx out dotdot w else w + 1

/-- Main loop of Go `Clean`: `path` is what is left to read, `out` the output
buffer, `dotdot` the index where a `..` must stop. -/
def cleanLoop (rooted : Bool) : Nat → List Char → List Char → Nat → List Char
  | 0, _, out, _ => out
  | fuel + 1, path, out, dotdot =>
    match path with
    | [] => out
    | c :: rest =>
      if c = '/' then cleanLoop rooted fuel rest out dotdot
      else if c = '.' ∧ (rest = [] ∨ rest.head? = some '/') then
        cleanLoop rooted fuel rest out dotdot
      else if c = '.' ∧ rest.head? = some '.' ∧
          (rest.tail = [] ∨ rest.tail.head? = some '/') then
        if out.length > dotdot then
          cleanLoop rooted fuel rest.tail
            (out.take (backtrackIdx out dotdot (out.length - 1))) dotdot
        else if rooted then cleanLoop rooted fuel rest.tail out dotdot
        else
          let out1 := (if out.length > 0 then out ++ ['/'] else out) ++ ['.', '.']
          cleanLoop rooted fuel rest.tail out1 out1.length
      else
        let out1 :=
          if (rooted ∧ out.length ≠ 1) ∨ (¬ rooted ∧ out.length ≠ 0) then out ++ ['/'] else out
        cleanLoop rooted fuel ((c :: rest).dropWhile (fun x => x ≠ '/'))
          (out1 ++ (c :: rest).takeWhile (fun x => x ≠ '/')) dotdot

/-- Go `filepath.Clean` on a Unix system: the shortest path name equivalent to
`path` by purely lexical processing. -/
def Clean (path : String) : String :=
  if path = "" then "."
  else
    let rooted := path.data.head? = some '/'
    let out := cleanLoop rooted path.data.length path.data
      (if rooted then ['/'] else []) (if rooted then 1 else 0)
    if out = [] then "." else String.mk out

/-! ## The archive -/

/-- Go `tar.Header`. -/
structure Header where
  Name : String
  Mode : Int
  Uid : Int
  Gid : Int
  Size : Int
  ModTime : Int
  Typeflag : UInt8
  Linkname : String
  Uname : String
  Gname : String
  Devmajor : Int
  Devminor : Int
  AccessTime : Int
  ChangeTime : Int
  Xattrs : List (String × String)
  deriving DecidableEq, Repr

/-- One archive entry as the tar reader delivers it: the header returned by
`tr.Next()` and the bytes then read from `tr`. -/
structure Entry where
  hdr : Header
  payload : List UInt8
  deriving DecidableEq, Repr

/-! ## The manifest (`github.com/appc/spec/schema`) -/

/-- Modelled from the spec: an Isolator Record, "a named capability/restriction
attached to an app; identified by name" and "carrying an opaque value
payload" (`types.Isolator` is declared in appc/spec, not under src/).
`ValueRaw` is the raw JSON text of the value, absent when the record had none;
`value` is the decoded set of a Linux-capabilities isolator. -/
structure Isolator where
  Name : String
  ValueRaw : Option String
  value : Option (List String)
  deriving DecidableEq, Repr

/-- Modelled from the spec: the "app" sub-structure, which "contains an ordered
collection of isolator records" (`types.App` is declared in appc/spec, not
under src/).  `Other` stands for the fields of the app the program never
reads, each a field name with its JSON text. -/
structure App where
  Exec : List String
  User : String
  Group : String
  Isolators : List Isolator
  Other : List (String × String)
  deriving DecidableEq, Repr

/-- Modelled from the spec: the Structured Document, "a mapping of named fields
to values, including a top-level name field and an embedded app sub-structure"
that may be absent (`schema.ImageManifest` is declared in appc/spec, not under
src/).  `Other` stands for the top-level fields the program never reads
(labels, annotations, dependencies, path whitelist). -/
structure ImageManifest where
  ACKind : String
  ACVersion : String
  Name : String
  App : Option App
  Other : List (String × String)
  deriving DecidableEq, Repr

/-- The constant `types.LinuxCapabilitiesRetainSetName` of appc/spec. -/
def LinuxCapabilitiesRetainSetName : String := "os/linux/capabilities-retain-set"

/-- The constant `types.LinuxCapabilitiesRevokeSetName` of appc/spec. -/
def LinuxCapabilitiesRevokeSetName : String := "os/linux/capabilities-remove-set"

/-- Characters allowed in an ACName: lower-case letters, digits, `-`, `.`, `/`. -/
def validACNameChar (c : Char) : Bool :=
  c.isLower || c.isDigit || c = '-' || c = '.' || c = '/'

/-- Lower-case letter or digit, the characters an ACName may start and end
with. -/
def alnumACNameChar (c : Char) : Bool := c.isLower || c.isDigit

/-- Modelled from the spec: the name-syntax rules, "non-empty, restricted
character set, single well-formed identifier — fails otherwise"
(`types.NewACName` is a function of appc/spec, not under src/).  On success
the name is the given string itself. -/
def NewACName (s : String) : Except Error String :=
  if s.data = [] then .error (.acName "ACName cannot be empty")
  else if ¬ s.data.all validACNameChar then
    .error (.acName "ACName must contain only lower case alphanumeric characters plus \"-./\"")
  else if s.data.head?.all alnumACNameChar ∧ s.data.getLast?.all alnumACNameChar then .ok s
  else .error (.acName "ACName must start and end with only lower case alphanumeric characters")

/-- Go `Isolators.GetByName` of appc/spec: the last isolator of the collection
with the given name, if there is one. -/
def GetByName (is : List Isolator) (name : String) : Option Isolator :=
  is.reverse.find? (fun i => i.Name = name)

/-- Case folding under which `encoding/json` matches an object key with a
struct field: ASCII letters fold to lower case, and so do the Kelvin sign and
the long s. -/
def foldChar (c : Char) : Char :=
  if c = Char.ofNat 0x212A then 'k'
  else if c = Char.ofNat 0x17F then 's'
  else c.toLower

/-- Raw values of the members of an object that `encoding/json` stores in the
struct field `field`, in input order. -/
def fieldValues (ms : List (List Char × List Char)) (field : String) : List (List Char) :=
  (ms.filter (fun m => m.1.map foldChar = field.data.map foldChar)).map Prod.snd

/-- Decode raw JSON text into a Go `string`: a string literal gives its value,
`null` leaves the empty string, anything else is an error. -/
def decodeString (raw : List Char) : Except Error String :=
  match parse raw with
  | some (.string s) => .ok (String.mk s)
  | some .null => .ok ""
  | _ => .error (.json "cannot unmarshal into Go value of type string")

/-- Decode every raw text with `dec`, in order; the first error fails the
whole list. -/
def decodeEach {α : Type} (dec : List Char → Except Error α) :
    List (List Char) → Except Error (List α)
  | [] => .ok []
  | raw :: more =>
    match dec raw with
    | .error e => .error e
    | .ok v =>
      match decodeEach dec more with
      | .error e => .error e
      | .ok vs => .ok (v :: vs)

/-- Decode raw JSON text into a Go `[]string`. -/
def decodeStrings (raw : List Char) : Except Error (List String) :=
  match parse raw with
  | some (.array es) => decodeEach decodeString es
  | some .null => .ok []
  | _ => .error (.json "cannot unmarshal into Go value of type []string")

/-- Decode every raw value with `dec`, in input order, and keep the last
result (`dflt` when there is none): a repeated key overwrites the field, and
any failure fails the whole decoding. -/
def decodeField {α : Type} (dec : List Char → Except Error α) (dflt : α) :
    List (List Char) → Except Error α
  | [] => .ok dflt
  | raw :: more =>
    match dec raw with
    | .error e => .error e
    | .ok v => decodeField dec v more

/-- The `UnmarshalJSON` and `AssertValid` of the value of a Linux-capabilities
isolator in appc/spec: an object whose `set` member is a non-empty array of
strings. -/
def decodeCapabilitySet (raw : List Char) : Except Error (List String) :=
  match parse raw with
  | some (.object ms) =>
    match decodeField decodeStrings [] (fieldValues ms "set") with
    | .error e => .error e
    | .ok set => if set = [] then .error (.errorf "set must be non-empty") else .ok set
  | some .null => .error (.errorf "set must be non-empty")
  | _ => .error (.json "cannot unmarshal into Go value of type linuxCapabilitiesSetValue")

/-- The `UnmarshalJSON` of `types.ACName` in appc/spec: a JSON string that
passes the name-syntax check. -/
def decodeACName (raw : List Char) : Except Error String :=
  match parse raw with
  | some (.string s) => NewACName (String.mk s)
  | some .null => NewACName ""
  | _ => .error (.json "cannot unmarshal into Go value of type string")

/-- Go `(*types.Isolator).UnmarshalJSON` of appc/spec, applied to the bytes of
the string `b`: the text must be a JSON object; its `name` member is decoded
as an ACName and its `value` member kept raw; when the name is one of the two
Linux-capabilities isolators the value is decoded and checked as a capability
set.  (The resource isolators that appc/spec also registers are not modelled:
their names are treated like unregistered ones.) -/
def Isolator.UnmarshalJSON (b : String) : Except Error Isolator :=
  match parse b.data with
  | none => .error (.json "invalid character")
  | some (.object ms) =>
    match decodeField decodeACName "" (fieldValues ms "name") with
    | .error e => .error e
    | .ok name =>
      let valueRaw := (fieldValues ms "value").getLast?
      if name = LinuxCapabilitiesRetainSetName ∨ name = LinuxCapabilitiesRevokeSetName then
        match valueRaw with
        | none => .error (.errorf "isolator without a value")
        | some raw =>
          match decodeCapabilitySet raw with
          | .error e => .error e
          | .ok set => .ok { Name := name, ValueRaw := some (String.mk raw), value := some set }
      else .ok { Name := name, ValueRaw := valueRaw.map String.mk, value := none }
  | some .null => .ok { Name := "", ValueRaw := none, value := none }
  | some _ => .error (.json "cannot unmarshal into Go value of type types.isolator")

/-! ## The program (`src/main.go`) -/

/-- The constant `manifestFile`. -/
def manifestFile : String := "manifest"

/-- The command-line flags `-name` and `-capability`; both default to the
empty string. -/
structure Flags where
  flagName : String
  flagCaps : String
  deriving DecidableEq, Repr

/-- Go `getIsolatorStr`: the `fmt.Sprintf` of the isolator template with
`name` and `value` put in by `%s`. -/
def getIsolatorStr (name value : String) : String :=
  "\n\t\t\x7b\n\t\t    \"name\": \"" ++ name ++ "\",\n\t\t    \"value\": \x7b " ++ value ++ " \x7d\n\t\t\x7d"

/-- Second block of `patchManifest` (lines 57-80): the capability edit. -/
def patchManifestCaps (fl : Flags) (im : ImageManifest) : ImageManifest × Option Error :=
  if fl.flagCaps ≠ "" then
    match im.App with
    | none => (im, some (.errorf "no app in the manifest"))
    | some app =>
      match GetByName app.Isolators LinuxCapabilitiesRetainSetName with
      | some _ => (im, some (.errorf "isolator already exists"))
      | none =>
        let capsList := Split fl.flagCaps ','
        let caps := "\"set\": [\"" ++ Join capsList "\", \"" ++ "\"]"
        let isolatorStr := getIsolatorStr LinuxCapabilitiesRetainSetName caps
        match Isolator.UnmarshalJSON isolatorStr with
        | .error err => (im, some err)
        | .ok isolator =>
          ({ im with App := some { app with Isolators := app.Isolators ++ [isolator] } }, none)
  else (im, none)

/-- Go `patchManifest`: the manifest as the call leaves it, and the error
returned (`none` for `nil`).  The name edit comes first (lines 49-55); when it
fails the function returns before the capability edit. -/
def patchManifest (fl : Flags) (im : ImageManifest) : ImageManifest × Option Error :=
  if fl.flagName ≠ "" then
    match NewACName fl.flagName with
    | .error err => (im, some err)
    | .ok name => patchManifestCaps fl { im with Name := name }
  else patchManifestCaps fl im

/-- The `UnmarshalJSON` and `MarshalJSON` methods of `schema.ImageManifest`,
which the program takes from appc/spec. -/
structure Codec where
  UnmarshalJSON : List UInt8 → Except Error ImageManifest
  MarshalJSON : ImageManifest → Except Error (List UInt8)

/-- The loop `Tar:` of `aciPatch`: `tr` is what the tar reader has still to
deliver, `tw` the entries written so far.  The result is everything written
and the error returned. -/
def aciPatchLoop (c : Codec) (fl : Flags) : List Entry → List Entry → List Entry × Option Error
  | [], tw => (tw, none)
  | e :: tr, tw =>
    if Clean e.hdr.Name = manifestFile then
      match c.UnmarshalJSON e.payload with
      | .error err => (tw, some err)
      | .ok im =>
        match patchManifest fl im with
        | (_, some err) => (tw, some err)
        | (im1, none) =>
          match c.MarshalJSON im1 with
          | .error err => (tw, some err)
          | .ok new_bytes =>
            aciPatchLoop c fl tr
              (tw ++ [{ hdr := { e.hdr with Size := (new_bytes.length : Int) },
                        payload := new_bytes }])
    else aciPatchLoop c fl tr (tw ++ [e])

/-- Go `aciPatch`: the entries written to standard output and the error
returned, for the entries `stdin` on standard input. -/
def aciPatch (c : Codec) (fl : Flags) (stdin : List Entry) : List Entry × Option Error :=
  aciPatchLoop c fl stdin []

/-! ## A concrete manifest codec

The theorems below hold for every `Codec`.  To run the program on concrete
archives, `appcCodec` decodes and encodes the JSON form of an image manifest
for the fields `acKind`, `acVersion`, `name` and `app` (`exec`, `user`,
`group`, `isolators`); the other fields of the schema are carried as JSON
text and written after the decoded ones.  The validation appc/spec applies to
versions, labels and the like is not modelled. -/

/-- Go `utf8.DecodeRune`: the first character of a byte sequence and the
number of bytes it takes; a malformed sequence gives the replacement
character and width 1. -/
def DecodeRune : List UInt8 → Char × Nat
  | [] => (replacementChar, 0)
  | b0 :: t0 =>
    if b0 < 0x80 then (Char.ofNat b0.toNat, 1)
    else
      match t0 with
      | [] => (replacementChar, 1)
      | b1 :: t1 =>
        if 0xC2 ≤ b0 ∧ b0 ≤ 0xDF ∧ 0x80 ≤ b1 ∧ b1 ≤ 0xBF then
          (Char.ofNat ((b0.toNat - 0xC0) * 64 + (b1.toNat - 0x80)), 2)
        else
          match t1 with
          | [] => (replacementChar, 1)
          | b2 :: t2 =>
            if 0xE0 ≤ b0 ∧ b0 ≤ 0xEF ∧ (if b0 = 0xE0 then 0xA0 else 0x80) ≤ b1 ∧
                b1 ≤ (if b0 = 0xED then 0x9F else 0xBF) ∧ 0x80 ≤ b2 ∧ b2 ≤ 0xBF then
              (Char.ofNat ((b0.toNat - 0xE0) * 4096 + (b1.toNat - 0x80) * 64 +
                (b2.toNat - 0x80)), 3)
            else
              match t2 with
              | [] => (replacementChar, 1)
              | b3 :: _ =>
                if 0xF0 ≤ b0 ∧ b0 ≤ 0xF4 ∧ (if b0 = 0xF0 then 0x90 else 0x80) ≤ b1 ∧
                    b1 ≤ (if b0 = 0xF4 then 0x8F else 0xBF) ∧ 0x80 ≤ b2 ∧ b2 ≤ 0xBF ∧
                    0x80 ≤ b3 ∧ b3 ≤ 0xBF then
                  (Char.ofNat ((b0.toNat - 0xF0) * 262144 + (b1.toNat - 0x80) * 4096 +
                    (b2.toNat - 0x80) * 64 + (b3.toNat - 0x80)), 4)
                else (replacementChar, 1)

/-- Decode at most `fuel` characters of a byte sequence. -/
def utf8DecodeN : Nat → List UInt8 → List Char
  | 0, _ => []
  | _, [] => []
  | fuel + 1, b :: bs =>
    (DecodeRune (b :: bs)).1 :: utf8DecodeN fuel ((b :: bs).drop (DecodeRune (b :: bs)).2)

/-- The characters of a byte sequence read as UTF-8. -/
def utf8Decode (bs : List UInt8) : List Char := utf8DecodeN bs.length bs

/-- UTF-8 bytes of one character. -/
def utf8EncodeChar (c : Char) : List UInt8 :=
  let n := c.toNat
  if n < 0x80 then [UInt8.ofNat n]
  else if n < 0x800 then [UInt8.ofNat (0xC0 + n / 64), UInt8.ofNat (0x80 + n % 64)]
  else if n < 0x10000 then
    [UInt8.ofNat (0xE0 + n / 4096), UInt8.ofNat (0x80 + n / 64 % 64), UInt8.ofNat (0x80 + n % 64)]
  else
    [UInt8.ofNat (0xF0 + n / 262144), UInt8.ofNat (0x80 + n / 4096 % 64),
     UInt8.ofNat (0x80 + n / 64 % 64), UInt8.ofNat (0x80 + n % 64)]

/-- The bytes of a Go string: `[]byte(s)`. -/
def utf8Encode (s : String) : List UInt8 := s.data.flatMap utf8EncodeChar

/-- Lower-case hexadecimal digit. -/
def hexDigit (n : Nat) : Char :=
  if n < 10 then Char.ofNat ('0'.toNat + n) else Char.ofNat ('a'.toNat + (n - 10))

/-- Text `encoding/json` writes for one character of a string. -/
def quoteChar (c : Char) : List Char :=
  if c = '"' then ['\\', '"']
  else if c = '\\' then ['\\', '\\']
  else if c = '\n' then ['\\', 'n']
  else if c = '\r' then ['\\', 'r']
  else if c = '\t' then ['\\', 't']
  else if c.toNat < 0x20 ∨ c = '<' ∨ c = '>' ∨ c = '&' then
    ['\\', 'u', '0', '0', hexDigit (c.toNat / 16), hexDigit (c.toNat % 16)]
  else if c.toNat = 0x2028 then ['\\', 'u', '2', '0', '2', '8']
  else if c.toNat = 0x2029 then ['\\', 'u', '2', '0', '2', '9']
  else [c]

/-- JSON string literal for a Go string. -/
def quote (s : String) : List Char := '"' :: s.data.flatMap quoteChar ++ ['"']

/-- Go `json.Compact` on valid JSON text: whitespace outside string literals is
dropped.  `inStr` and `esc` say whether the position is inside a literal and
right after a backslash. -/
def compactFrom : Bool → Bool → List Char → List Char
  | _, _, [] => []
  | true, true, c :: cs => c :: compactFrom true false cs
  | true, false, c :: cs =>
    if c = '\\' then c :: compactFrom true true cs
    else if c = '"' then c :: compactFrom false false cs
    else c :: compactFrom true false cs
  | false, _, c :: cs =>
    if isSpace c then compactFrom false false cs
    else if c = '"' then c :: compactFrom true false cs
    else c :: compactFrom false false cs

/-- Comma-separated JSON texts between brackets. -/
def bracket (l r : Char) (items : List (List Char)) : List Char :=
  l :: joinChars [','] items ++ [r]

/-- JSON text of an isolator. -/
def encodeIsolator (i : Isolator) : List Char :=
  bracket '{' '}'
    [quote "name" ++ ':' :: quote i.Name,
     quote "value" ++ ':' ::
       (match i.ValueRaw with
        | some raw => compactFrom false false raw.data
        | none => "null".data)]

/-- JSON text of an app. -/
def encodeApp (a : App) : List Char :=
  bracket '{' '}'
    ([quote "exec" ++ ':' :: bracket '[' ']' (a.Exec.map quote),
      quote "user" ++ ':' :: quote a.User,
      quote "group" ++ ':' :: quote a.Group] ++
     (if a.Isolators = [] then []
      else [quote "isolators" ++ ':' :: bracket '[' ']' (a.Isolators.map encodeIsolator)]) ++
     a.Other.map (fun kv => quote kv.1 ++ ':' :: kv.2.data))

/-- Check `assertValid` of `schema.ImageManifest`. -/
def assertValid (im : ImageManifest) : Option Error :=
  if im.ACKind ≠ "ImageManifest" then
    some (.errorf "missing or bad ACKind (must be \"ImageManifest\")")
  else if im.ACVersion = "" then some (.errorf "acVersion must be set")
  else if im.Name = "" then some (.errorf "name must be set")
  else none

/-- Encode a manifest (`MarshalJSON`): check it, then write the compact JSON
object. -/
def marshalManifest (im : ImageManifest) : Except Error (List UInt8) :=
  match assertValid im with
  | some e => .error e
  | none =>
    .ok (utf8Encode (String.mk (bracket '{' '}'
      ([quote "acKind" ++ ':' :: quote im.ACKind,
        quote "acVersion" ++ ':' :: quote im.ACVersion,
        quote "name" ++ ':' :: quote im.Name] ++
       (match im.App with
        | some a => [quote "app" ++ ':' :: encodeApp a]
        | none => []) ++
       im.Other.map (fun kv => quote kv.1 ++ ':' :: kv.2.data)))))

/-- The members of `ms` among the field names `keys`, as field name and compact
JSON text. -/
def otherFields (ms : List (List Char × List Char)) (keys : List String) :
    List (String × String) :=
  keys.filterMap (fun k =>
    (fieldValues ms k).getLast?.map (fun raw => (k, String.mk (compactFrom false false raw))))

/-- Decode the `isolators` member of an app. -/
def decodeIsolators (raw : List Char) : Except Error (List Isolator) :=
  match parse raw with
  | some (.array es) => decodeEach (fun e => Isolator.UnmarshalJSON (String.mk e)) es
  | some .null => .ok []
  | _ => .error (.json "cannot unmarshal into Go value of type types.Isolators")

/-- Decode the `app` member of a manifest. -/
def decodeApp (raw : List Char) : Except Error (Option App) :=
  match parse raw with
  | some (.object ms) =>
    match decodeField decodeStrings [] (fieldValues ms "exec"),
      decodeField decodeString "" (fieldValues ms "user"),
      decodeField decodeString "" (fieldValues ms "group"),
      decodeField decodeIsolators [] (fieldValues ms "isolators") with
    | .ok exec, .ok user, .ok group, .ok isolators =>
      .ok (some { Exec := exec, User := user, Group := group, Isolators := isolators,
                  Other := otherFields ms
                    ["eventHandlers", "workingDirectory", "environment", "mountPoints", "ports"] })
    | .error e, _, _, _ => .error e
    | _, .error e, _, _ => .error e
    | _, _, .error e, _ => .error e
    | _, _, _, .error e => .error e
  | some .null => .ok none
  | _ => .error (.json "cannot unmarshal into Go value of type types.App")

/-- Decode a manifest (`UnmarshalJSON`): read the JSON object, then check
it. -/
def unmarshalManifest (data : List UInt8) : Except Error ImageManifest :=
  match parse (utf8Decode data) with
  | some (.object ms) =>
    match decodeField decodeString "" (fieldValues ms "acKind"),
      decodeField decodeString "" (fieldValues ms "acVersion"),
      decodeField decodeACName "" (fieldValues ms "name"),
      decodeField decodeApp none (fieldValues ms "app") with
    | .ok kind, .ok version, .ok name, .ok app =>
      let im : ImageManifest :=
        { ACKind := kind, ACVersion := version, Name := name, App := app,
          Other := otherFields ms ["labels", "annotations", "dependencies", "pathWhitelist"] }
      match assertValid im with
      | some e => .error e
      | none => .ok im
    | .error e, _, _, _ => .error e
    | _, .error e, _, _ => .error e
    | _, _, .error e, _ => .error e
    | _, _, _, .error e => .error e
  | some _ => .error (.json "cannot unmarshal into Go value of type schema.imageManifest")
  | none => .error (.json "invalid character")

/-- The JSON codec of image manifests. -/
def appcCodec : Codec := { UnmarshalJSON := unmarshalManifest, MarshalJSON := marshalManifest }

/-! ## Sample data -/

/-- Header of a regular file with the given name and size. -/
def fileHeader (name : String) (size : Int) : Header :=
  { Name := name, Mode := 420, Uid := 0, Gid := 0, Size := size, ModTime := 0, Typeflag := 48,
    Linkname := "", Uname := "", Gname := "", Devmajor := 0, Devminor := 0,
    AccessTime := 0, ChangeTime := 0, Xattrs := [] }

/-- Archive entry for a regular file. -/
def fileEntry (name : String) (payload : List UInt8) : Entry :=
  { hdr := fileHeader name payload.length, payload := payload }

/-- A manifest without an app. -/
def bareManifest : ImageManifest :=
  { ACKind := "ImageManifest", ACVersion := "0.6.1", Name := "example.com/old", App := none,
    Other := [] }

/-- A manifest with an app that has no isolator. -/
def appManifest : ImageManifest :=
  { bareManifest with
    App := some { Exec := ["/bin/sh"], User := "0", Group := "0", Isolators := [], Other := [] } }

/-- An isolator retaining one capability. -/
def killIsolator : Isolator :=
  { Name := LinuxCapabilitiesRetainSetName, ValueRaw := some "\x7b\"set\":[\"CAP_KILL\"]\x7d",
    value := some ["CAP_KILL"] }

/-- A manifest whose app already has a capabilities-retain-set isolator. -/
def retainManifest : ImageManifest :=
  { bareManifest with
    App := some { Exec := ["/bin/sh"], User := "0", Group := "0", Isolators := [killIsolator],
                  Other := [] } }

/-- JSON bytes of `bareManifest`. -/
def bareManifestJSON : List UInt8 :=
  utf8Encode "\x7b\"acKind\":\"ImageManifest\",\"acVersion\":\"0.6.1\",\"name\":\"example.com/old\"\x7d"

/-- JSON bytes of `bareManifest` renamed to `example.com/new`. -/
def renamedManifestJSON : List UInt8 :=
  utf8Encode "\x7b\"acKind\":\"ImageManifest\",\"acVersion\":\"0.6.1\",\"name\":\"example.com/new\"\x7d"

/-- A payload that is not text. -/
def binaryPayload : List UInt8 := [0x7f, 0x45, 0x4c, 0x46, 0xff, 0x00]

/-- An archive with a manifest and one other file. -/
def sampleArchive : List Entry :=
  [fileEntry "manifest" bareManifestJSON, fileEntry "rootfs/bin/sh" binaryPayload]

/-- The archive `sampleArchive` with the manifest renamed. -/
def sampleRenamed : List Entry :=
  [fileEntry "manifest" renamedManifestJSON, fileEntry "rootfs/bin/sh" binaryPayload]

/-- An archive with two entries whose cleaned name is `manifest`. -/
def twoManifests : List Entry :=
  [fileEntry "manifest" bareManifestJSON, fileEntry "./manifest" bareManifestJSON]

/-- An archive whose manifest, named `./manifest`, comes second. -/
def secondManifest : List Entry :=
  [fileEntry "rootfs/bin/sh" binaryPayload, fileEntry "./manifest" bareManifestJSON,
   fileEntry "rootfs/etc/hosts" []]

/-- An archive without a manifest. -/
def noManifest : List Entry :=
  [fileEntry "rootfs/bin/sh" binaryPayload, fileEntry "rootfs/manifest" bareManifestJSON]

/-- The error `NewACName` gives for a name with a character outside the
allowed set. -/
def invalidCharError : Error :=
  .acName "ACName must contain only lower case alphanumeric characters plus \"-./\""

/-! ## The entry written for an entry read -/

/-- What one turn of the loop of `aciPatch` writes for the entry `e`, or the
error it returns. -/
def written (c : Codec) (fl : Flags) (e : Entry) : Except Error Entry :=
  if Clean e.hdr.Name = manifestFile then
    match c.UnmarshalJSON e.payload with
    | .error err => .error err
    | .ok im =>
      match patchManifest fl im with
      | (_, some err) => .error err
      | (im1, none) =>
        match c.MarshalJSON im1 with
        | .error err => .error err
        | .ok new_bytes =>
          .ok { hdr := { e.hdr with Size := (new_bytes.length : Int) }, payload := new_bytes }
  else .ok e

/-- Number of positions at which the output entry is not the input entry. -/
def differing (stdin out : List Entry) : Nat :=
  ((stdin.zip out).filter (fun p => decide (p.1 ≠ p.2))).length

/-- Number of entries whose cleaned name is the manifest name. -/
def manifestCount (stdin : List Entry) : Nat :=
  (stdin.filter (fun e => decide (Clean e.hdr.Name = manifestFile))).length

/-- A character that stands for itself inside a JSON string literal: not a
double quote, not a backslash, not a control character. -/
def plainChar (c : Char) : Prop := c ≠ '"' ∧ c ≠ '\\' ∧ 0x20 ≤ c.toNat

/-- Being a plain character is decidable. -/
instance instDecidablePlainChar (c : Char) : Decidable (plainChar c) :=
  inferInstanceAs (Decidable (c ≠ '"' ∧ c ≠ '\\' ∧ 0x20 ≤ c.toNat))

/-- A string literal: the text between double quotes. -/
def quoted (s : List Char) : List Char := '"' :: (s ++ ['"'])

/-- Separator `fmt.Sprintf` and `strings.Join` put between two capabilities:
quote, comma, space, quote. -/
def capsSep : List Char := ['"', ',', ' ', '"']

/-- Text of the array of capabilities in the isolator string. -/
def capsArray (l : List (List Char)) : List Char :=
  '[' :: '"' :: (joinChars capsSep l ++ ['"', ']'])

/-- Text of the value object in the isolator string. -/
def capsValue (l : List (List Char)) : List Char :=
  '\x7b' :: ' ' :: '"' :: 's' :: 'e' :: 't' :: '"' :: ':' :: ' ' :: (capsArray l ++ [' ', '\x7d'])

/-- Characters of the isolator string `getIsolatorStr` builds for the name
`name` and the capabilities `l`. -/
def isolatorText (name : List Char) (l : List (List Char)) : List Char :=
  '\n' :: '\t' :: '\t' :: '\x7b' :: '\n' :: '\t' :: '\t' :: ' ' :: ' ' :: ' ' :: ' ' ::
    '"' :: 'n' :: 'a' :: 'm' :: 'e' :: '"' :: ':' :: ' ' :: '"' ::
    (name ++ '"' :: ',' :: '\n' :: '\t' :: '\t' :: ' ' :: ' ' :: ' ' :: ' ' ::
      '"' :: 'v' :: 'a' :: 'l' :: 'u' :: 'e' :: '"' :: ':' :: ' ' ::
      (capsValue l ++ ['\n', '\t', '\t', '\x7d']))

/-! ## Lemmas on the loop -/

theorem aciPatchLoop_cons (c : Codec) (fl : Flags) (e : Entry) (tr tw : List Entry) :
    aciPatchLoop c fl (e :: tr) tw =
      match written c fl e with
      | .error err => (tw, some err)
      | .ok e1 => aciPatchLoop c fl tr (tw ++ [e1]) := by
  simp only [aciPatchLoop, written]
  split
  · split
    · rfl
    · split
      · rfl
      · split <;> rfl
  · rfl

theorem aciPatchLoop_acc (c : Codec) (fl : Flags) (tr : List Entry) :
    ∀ tw : List Entry, aciPatchLoop c fl tr tw =
      (tw ++ (aciPatchLoop c fl tr []).1, (aciPatchLoop c fl tr []).2) := by
  induction tr with
  | nil => intro tw; simp [aciPatchLoop]
  | cons e tr ih =>
    intro tw
    rw [aciPatchLoop_cons, aciPatchLoop_cons c fl e tr []]
    cases hw : written c fl e with
    | error err => simp
    | ok e1 =>
      simp only
      rw [ih (tw ++ [e1]), ih ([] ++ [e1])]
      simp

theorem aciPatch_nil (c : Codec) (fl : Flags) : aciPatch c fl [] = ([], none) := rfl

theorem aciPatch_cons_error (c : Codec) (fl : Flags) (e : Entry) (tr : List Entry) (err : Error)
    (h : written c fl e = .error err) : aciPatch c fl (e :: tr) = ([], some err) := by
  simp only [aciPatch]
  rw [aciPatchLoop_cons, h]

theorem aciPatch_cons_ok (c : Codec) (fl : Flags) (e e1 : Entry) (tr : List Entry)
    (h : written c fl e = .ok e1) :
    aciPatch c fl (e :: tr) = (e1 :: (aciPatch c fl tr).1, (aciPatch c fl tr).2) := by
  simp only [aciPatch]
  rw [aciPatchLoop_cons, h]
  simp only
  rw [aciPatchLoop_acc]
  simp

/-- A run that ends without error wrote, position by position, the entry
`written` gives for each entry read. -/
theorem aciPatch_success (c : Codec) (fl : Flags) :
    ∀ (stdin out : List Entry), aciPatch c fl stdin = (out, none) →
      List.Forall₂ (fun e e1 => written c fl e = .ok e1) stdin out := by
  intro stdin
  induction stdin with
  | nil =>
    intro out h
    rw [aciPatch_nil] at h
    cases h
    exact List.Forall₂.nil
  | cons e tr ih =>
    intro out h
    cases hw : written c fl e with
    | error err =>
      rw [aciPatch_cons_error c fl e tr err hw] at h
      cases h
    | ok e1 =>
      rw [aciPatch_cons_ok c fl e e1 tr hw] at h
      cases hr : aciPatch c fl tr with
      | mk out1 r =>
        rw [hr] at h
        simp only [Prod.mk.injEq] at h
        obtain ⟨h1, h2⟩ := h
        subst h1
        subst h2
        exact List.Forall₂.cons hw (ih out1 hr)

/-- Processing a prefix that succeeds and then the rest. -/
theorem aciPatch_append (c : Codec) (fl : Flags) :
    ∀ (pre pre1 rest : List Entry), aciPatch c fl pre = (pre1, none) →
      aciPatch c fl (pre ++ rest) = (pre1 ++ (aciPatch c fl rest).1, (aciPatch c fl rest).2) := by
  intro pre
  induction pre with
  | nil =>
    intro pre1 rest h
    rw [aciPatch_nil] at h
    cases h
    simp
  | cons e tr ih =>
    intro pre1 rest h
    cases hw : written c fl e with
    | error err =>
      rw [aciPatch_cons_error c fl e tr err hw] at h
      cases h
    | ok e1 =>
      rw [aciPatch_cons_ok c fl e e1 tr hw] at h
      cases hr : aciPatch c fl tr with
      | mk out1 r =>
        rw [hr] at h
        simp only [Prod.mk.injEq] at h
        obtain ⟨h1, h2⟩ := h
        subst h1
        subst h2
        rw [List.cons_append, aciPatch_cons_ok c fl e e1 (tr ++ rest) hw, ih out1 rest hr]
        simp

theorem getElem?_append_cons_of_length {α : Type} (l : List α) (x : α) (r : List α) (n : Nat)
    (h : l.length = n) : (l ++ x :: r)[n]? = some x := by
  subst h
  rw [List.getElem?_append_right (Nat.le_refl _)]
  simp

/-- Whatever a run wrote at a position, failed or not, is what `written` gives
for the entry read at that position. -/
theorem aciPatch_written_at (c : Codec) (fl : Flags) :
    ∀ (stdin : List Entry) (i : Nat) (e1 : Entry), (aciPatch c fl stdin).1[i]? = some e1 →
      ∃ hi : i < stdin.length, written c fl stdin[i] = .ok e1 := by
  intro stdin
  induction stdin with
  | nil =>
    intro i e1 h
    rw [aciPatch_nil] at h
    simp at h
  | cons e tr ih =>
    intro i e1 h
    cases hw : written c fl e with
    | error err =>
      rw [aciPatch_cons_error c fl e tr err hw] at h
      simp at h
    | ok e2 =>
      rw [aciPatch_cons_ok c fl e e2 tr hw] at h
      cases i with
      | zero =>
        simp at h
        subst h
        exact ⟨by simp, by simpa using hw⟩
      | succ j =>
        obtain ⟨hj, h2⟩ := ih j e1 (by simpa using h)
        exact ⟨by simpa using hj, by simpa using h2⟩

theorem written_name (c : Codec) (fl : Flags) (e e1 : Entry) (h : written c fl e = .ok e1) :
    e1.hdr.Name = e.hdr.Name := by
  unfold written at h
  split at h
  · split at h
    · cases h
    · split at h
      · cases h
      · split at h
        · cases h
        · cases h
          rfl
  · cases h
    rfl

theorem written_other (c : Codec) (fl : Flags) (e : Entry)
    (h : Clean e.hdr.Name ≠ manifestFile) : written c fl e = .ok e := by
  simp [written, h]

theorem aciPatch_no_manifest (c : Codec) (fl : Flags) :
    ∀ stdin : List Entry, (∀ e ∈ stdin, Clean e.hdr.Name ≠ manifestFile) →
      aciPatch c fl stdin = (stdin, none) := by
  intro stdin
  induction stdin with
  | nil => intro _; rfl
  | cons e tr ih =>
    intro h
    rw [aciPatch_cons_ok c fl e e tr (written_other c fl e (h e (List.mem_cons_self e tr))),
      ih (fun x hx => h x (List.mem_cons_of_mem e hx))]

theorem forall₂_written_getElem (c : Codec) (fl : Flags) :
    ∀ (stdin out : List Entry), List.Forall₂ (fun e e1 => written c fl e = .ok e1) stdin out →
      ∀ (i : Nat) (hi : i < stdin.length), ∃ e1, out[i]? = some e1 ∧
        written c fl stdin[i] = .ok e1 := by
  intro stdin out h
  induction h with
  | nil => intro i hi; simp at hi
  | @cons a b l1 l2 hw _ ih =>
    intro i hi
    cases i with
    | zero => exact ⟨b, by simp, hw⟩
    | succ j =>
      obtain ⟨e1, h1, h2⟩ := ih j (by simpa using hi)
      exact ⟨e1, by simpa using h1, by simpa using h2⟩

theorem forall₂_written_names (c : Codec) (fl : Flags) :
    ∀ (stdin out : List Entry), List.Forall₂ (fun e e1 => written c fl e = .ok e1) stdin out →
      out.map (fun e => e.hdr.Name) = stdin.map (fun e => e.hdr.Name) := by
  intro stdin out h
  induction h with
  | nil => rfl
  | cons hw _ ih => simp [List.map_cons, ih, written_name _ _ _ _ hw]

theorem forall₂_written_differing (c : Codec) (fl : Flags) :
    ∀ (stdin out : List Entry), List.Forall₂ (fun e e1 => written c fl e = .ok e1) stdin out →
      differing stdin out ≤ manifestCount stdin := by
  intro stdin out h
  induction h with
  | nil => simp [differing, manifestCount]
  | @cons e e1 tr out1 hw _ ih =>
    unfold differing manifestCount at *
    by_cases hm : Clean e.hdr.Name = manifestFile
    · have h1 : (List.filter (fun p => decide (p.1 ≠ p.2)) ((e, e1) :: tr.zip out1)).length ≤
          (List.filter (fun p => decide (p.1 ≠ p.2)) (tr.zip out1)).length + 1 := by
        rw [List.filter_cons]
        split <;> simp
      have h2 : (List.filter (fun e => decide (Clean e.hdr.Name = manifestFile)) (e :: tr)).length =
          (List.filter (fun e => decide (Clean e.hdr.Name = manifestFile)) tr).length + 1 := by
        simp [List.filter_cons, hm]
      rw [List.zip_cons_cons, h2]
      omega
    · have he : e1 = e := by
        rw [written_other c fl e hm] at hw
        cases hw
        rfl
      subst he
      simpa [List.filter_cons, hm] using ih

theorem NewACName_ok (s n : String) (h : NewACName s = .ok n) : n = s ∧ s ≠ "" := by
  unfold NewACName at h
  split at h
  · cases h
  · rename_i hne
    split at h
    · cases h
    · split at h
      · cases h
        refine ⟨rfl, ?_⟩
        intro hs
        apply hne
        rw [hs]
      · cases h

theorem patchManifest_of_empty (fl : Flags) (im : ImageManifest) (h : fl.flagName = "") :
    patchManifest fl im = patchManifestCaps fl im := by
  simp [patchManifest, h]

theorem patchManifest_of_ok (fl : Flags) (im : ImageManifest) (n : String)
    (h : NewACName fl.flagName = .ok n) :
    patchManifest fl im = patchManifestCaps fl { im with Name := fl.flagName } := by
  obtain ⟨hn, hs⟩ := NewACName_ok _ _ h
  subst hn
  simp [patchManifest, hs, h]

theorem patchManifest_of_error (fl : Flags) (im : ImageManifest) (err : Error)
    (hne : fl.flagName ≠ "") (h : NewACName fl.flagName = .error err) :
    patchManifest fl im = (im, some err) := by
  simp [patchManifest, hne, h]

/-- A failing capability edit leaves the document as it was. -/
theorem patchManifestCaps_error (fl : Flags) (im : ImageManifest)
    (h : (patchManifestCaps fl im).2 ≠ none) :
    (patchManifestCaps fl im).1 = im ∧ fl.flagCaps ≠ "" := by
  by_cases hc : fl.flagCaps = ""
  · simp [patchManifestCaps, hc] at h
  · refine ⟨?_, hc⟩
    cases happ : im.App with
    | none => simp [patchManifestCaps, hc, happ]
    | some app =>
      cases hg : GetByName app.Isolators LinuxCapabilitiesRetainSetName with
      | some j => simp [patchManifestCaps, hc, happ, hg]
      | none =>
        cases hu : Isolator.UnmarshalJSON (getIsolatorStr LinuxCapabilitiesRetainSetName
            ("\"set\": [\"" ++ Join (Split fl.flagCaps ',') "\", \"" ++ "\"]")) with
        | error e => simp [patchManifestCaps, hc, happ, hg, hu]
        | ok iso => simp [patchManifestCaps, hc, happ, hg, hu] at h

theorem patchManifestCaps_conflict (fl : Flags) (im : ImageManifest) (app : App)
    (happ : im.App = some app)
    (hex : ∃ i ∈ app.Isolators, i.Name = LinuxCapabilitiesRetainSetName)
    (hcaps : fl.flagCaps ≠ "") :
    patchManifestCaps fl im = (im, some (.errorf "isolator already exists")) := by
  obtain ⟨i, hi, hn⟩ := hex
  cases hg : GetByName app.Isolators LinuxCapabilitiesRetainSetName with
  | some j => simp [patchManifestCaps, hcaps, happ, hg]
  | none =>
    exfalso
    unfold GetByName at hg
    rw [List.find?_eq_none] at hg
    exact absurd (by simpa using hn) (hg i (by simpa using hi))

theorem patchManifestCaps_no_app (fl : Flags) (im : ImageManifest)
    (happ : im.App = none) (hcaps : fl.flagCaps ≠ "") :
    patchManifestCaps fl im = (im, some (.errorf "no app in the manifest")) := by
  simp [patchManifestCaps, hcaps, happ]

/-! ## Decoding the isolator string -/

theorem skipSpace_cons_of_not_space (c : Char) (cs : List Char) (h : isSpace c = false) :
    skipSpace (c :: cs) = c :: cs := by
  simp [skipSpace, h]

theorem scanUnits_plain (s rest : List Char) (h : ∀ c ∈ s, plainChar c) :
    scanUnits .plain (s ++ '"' :: rest) = some (s.map Unit16.char, rest) := by
  induction s with
  | nil => simp [scanUnits]
  | cons c cs ih =>
    have hc := h c (List.mem_cons_self c cs)
    have ih1 := ih (fun x hx => h x (List.mem_cons_of_mem c hx))
    obtain ⟨h1, h2, h3⟩ := hc
    have h4 : ¬ c.toNat < 32 := by omega
    simp [scanUnits, h1, h2, h4, ih1, consUnit]

theorem combineSurrogates_map_char (s : List Char) :
    combineSurrogates (s.map Unit16.char) = s := by
  induction s with
  | nil => rfl
  | cons c cs ih => simp [combineSurrogates, ih]

theorem scanString_plain (s rest : List Char) (h : ∀ c ∈ s, plainChar c) :
    scanString (s ++ '"' :: rest) = some (s, rest) := by
  simp [scanString, scanUnits_plain s rest h, combineSurrogates_map_char]

theorem consumed_append (a b : List Char) : consumed (a ++ b) b = a := by
  simp [consumed]

theorem scan_value_string (n : Nat) (s rest : List Char) (h : ∀ c ∈ s, plainChar c) :
    scan (n + 1) .value ('"' :: (s ++ '"' :: rest)) = some ([], rest) := by
  simp [scan, scanString_plain s rest h, noParts]

theorem joinChars_cons_cons (sep a b : List Char) (l : List (List Char)) :
    joinChars sep (a :: b :: l) = a ++ sep ++ joinChars sep (b :: l) := rfl

theorem scan_elems_strings (rest : List Char) :
    ∀ (l : List (List Char)) (a : List Char) (n : Nat),
      (∀ s ∈ a :: l, ∀ c ∈ s, plainChar c) → l.length + 2 ≤ n →
      scan n .elems ('"' :: (joinChars capsSep (a :: l) ++ '"' :: ']' :: rest)) =
        some ((a :: l).map (fun s => ([], quoted s)), rest) := by
  intro l
  induction l with
  | nil =>
    intro a n h hn
    obtain ⟨m, rfl⟩ : ∃ m, n = m + 2 := ⟨n - 2, by omega⟩
    have ha : ∀ c ∈ a, plainChar c := h a (List.mem_cons_self a [])
    have hc : consumed ('"' :: (a ++ '"' :: ']' :: rest)) (']' :: rest) = quoted a := by
      have : '"' :: (a ++ '"' :: ']' :: rest) = quoted a ++ ']' :: rest := by simp [quoted]
      rw [this, consumed_append]
    simp [joinChars, scan, scanString_plain a _ ha, noParts, skipSpace, isSpace, hc]
  | cons b t ih =>
    intro a n h hn
    obtain ⟨m, rfl⟩ : ∃ m, n = m + 2 := ⟨n - 2, by omega⟩
    have ha : ∀ c ∈ a, plainChar c := h a (List.mem_cons_self a _)
    have ht := ih b (m + 1) (fun s hs => h s (List.mem_cons_of_mem a hs)) (by simp at hn ⊢; omega)
    have e1 : '"' :: (joinChars capsSep (a :: b :: t) ++ '"' :: ']' :: rest) =
        '"' :: (a ++ '"' :: ',' :: ' ' :: '"' :: (joinChars capsSep (b :: t) ++ '"' :: ']' :: rest)) := by
      simp [joinChars_cons_cons, capsSep]
    have hc : consumed ('"' :: (a ++ '"' :: ',' :: ' ' :: '"' ::
          (joinChars capsSep (b :: t) ++ '"' :: ']' :: rest)))
        (',' :: ' ' :: '"' :: (joinChars capsSep (b :: t) ++ '"' :: ']' :: rest)) = quoted a := by
      have : '"' :: (a ++ '"' :: ',' :: ' ' :: '"' ::
          (joinChars capsSep (b :: t) ++ '"' :: ']' :: rest)) =
          quoted a ++ ',' :: ' ' :: '"' :: (joinChars capsSep (b :: t) ++ '"' :: ']' :: rest) := by
        simp [quoted]
      rw [this, consumed_append]
    rw [e1, scan.eq_4, scan_value_string (m) a _ ha]
    simp [skipSpace, isSpace, ht, hc]

theorem length_le_joinChars (a : List Char) :
    ∀ l : List (List Char), l.length ≤ (joinChars capsSep (a :: l)).length := by
  intro l
  induction l generalizing a with
  | nil => simp
  | cons b t ih =>
    have := ih b
    rw [joinChars_cons_cons]
    simp [capsSep] at this ⊢
    omega

theorem scan_value_capsArray (l : List (List Char)) (a : List Char) (n : Nat) (rest : List Char)
    (h : ∀ s ∈ a :: l, ∀ c ∈ s, plainChar c) (hn : l.length + 3 ≤ n) :
    scan n .value ('[' :: '"' :: (joinChars capsSep (a :: l) ++ '"' :: ']' :: rest)) =
      some ([], rest) := by
  obtain ⟨m, rfl⟩ : ∃ m, n = m + 1 := ⟨n - 1, by omega⟩
  have e := scan_elems_strings rest l a m h (by omega)
  simp [scan, skipSpace, isSpace, e, noParts]

theorem parse_of_string (text body s : List Char) (hcs : skipSpace text = '"' :: body)
    (h : scanString body = some (s, [])) : parse text = some (.string s) := by
  simp only [parse, hcs]
  rw [scan.eq_3]
  simp [h, noParts, skipSpace]

theorem parse_of_array (text cs1 r : List Char) (d : Char)
    (es : List (List Char × List Char)) (rest : List Char)
    (hcs : skipSpace text = '[' :: cs1) (hsk : skipSpace cs1 = d :: r) (hd : d ≠ ']')
    (h : scan (cs1.length + 1) .elems (d :: r) = some (es, rest))
    (hrest : skipSpace rest = []) :
    parse text = some (.array (es.map Prod.snd)) := by
  simp only [parse, hcs]
  rw [scan.eq_3]
  simp [hsk, hd, h, noParts, hrest]

theorem parse_of_object (text cs1 r : List Char) (d : Char)
    (ms : List (List Char × List Char)) (rest : List Char)
    (hcs : skipSpace text = '\x7b' :: cs1) (hsk : skipSpace cs1 = d :: r) (hd : d ≠ '\x7d')
    (h : scan (cs1.length + 1) .members (d :: r) = some (ms, rest))
    (hrest : skipSpace rest = []) :
    parse text = some (.object ms) := by
  simp only [parse, hcs]
  rw [scan.eq_3]
  simp [hsk, hd, h, noParts, hrest]

theorem parse_quoted (s : List Char) (h : ∀ c ∈ s, plainChar c) :
    parse (quoted s) = some (.string s) :=
  parse_of_string (quoted s) (s ++ ['"']) s (by simp [quoted, skipSpace, isSpace])
    (scanString_plain s [] h)

theorem decodeEach_quoted : ∀ l : List (List Char), (∀ s ∈ l, ∀ c ∈ s, plainChar c) →
    decodeEach decodeString (l.map quoted) = .ok (l.map String.mk) := by
  intro l
  induction l with
  | nil => intro _; rfl
  | cons a t ih =>
    intro h
    have ha := parse_quoted a (h a (List.mem_cons_self a t))
    have ht := ih (fun s hs => h s (List.mem_cons_of_mem a hs))
    simp [decodeEach, decodeString, ha, ht]

theorem parse_capsArray (l : List (List Char)) (a : List Char)
    (h : ∀ s ∈ a :: l, ∀ c ∈ s, plainChar c) :
    parse (capsArray (a :: l)) = some (.array ((a :: l).map quoted)) := by
  have hl := length_le_joinChars a l
  have e := parse_of_array (capsArray (a :: l)) ('"' :: (joinChars capsSep (a :: l) ++ ['"', ']']))
    (joinChars capsSep (a :: l) ++ ['"', ']']) '"' _ []
    (by simp [capsArray, skipSpace, isSpace]) (by simp [skipSpace, isSpace]) (by decide)
    (scan_elems_strings [] l a _ h (by simp; omega)) rfl
  rw [e]
  simp

theorem decodeStrings_capsArray (l : List (List Char)) (a : List Char)
    (h : ∀ s ∈ a :: l, ∀ c ∈ s, plainChar c) :
    decodeStrings (capsArray (a :: l)) = .ok ((a :: l).map String.mk) := by
  have := decodeEach_quoted (a :: l) h
  simp only [decodeStrings, parse_capsArray l a h, this]

theorem scan_members_set (l : List (List Char)) (a : List Char) (n : Nat) (rest : List Char)
    (h : ∀ s ∈ a :: l, ∀ c ∈ s, plainChar c) (hn : l.length + 4 ≤ n) :
    scan n .members ('"' :: 's' :: 'e' :: 't' :: '"' :: ':' :: ' ' ::
        (capsArray (a :: l) ++ ' ' :: '\x7d' :: rest)) =
      some ([(['s', 'e', 't'], capsArray (a :: l))], rest) := by
  obtain ⟨m, rfl⟩ : ∃ m, n = m + 1 := ⟨n - 1, by omega⟩
  have hk := scanString_plain ['s', 'e', 't']
    (':' :: ' ' :: (capsArray (a :: l) ++ ' ' :: '\x7d' :: rest)) (by decide)
  have hv := scan_value_capsArray l a m (' ' :: '\x7d' :: rest) h (by omega)
  have hc : consumed (capsArray (a :: l) ++ ' ' :: '\x7d' :: rest) (' ' :: '\x7d' :: rest) =
      capsArray (a :: l) := consumed_append _ _
  have e1 : capsArray (a :: l) ++ ' ' :: '\x7d' :: rest =
      '[' :: '"' :: (joinChars capsSep (a :: l) ++ '"' :: ']' :: ' ' :: '\x7d' :: rest) := by
    simp [capsArray]
  rw [scan.eq_5]
  simp only [List.cons_append, List.nil_append] at hk
  simp only [if_true, hk, skipSpace, isSpace]
  simp [e1 ▸ hc, e1, hv, skipSpace, isSpace]

theorem scan_value_capsValue (l : List (List Char)) (a : List Char) (n : Nat) (rest : List Char)
    (h : ∀ s ∈ a :: l, ∀ c ∈ s, plainChar c) (hn : l.length + 5 ≤ n) :
    scan n .value (capsValue (a :: l) ++ rest) = some ([], rest) := by
  obtain ⟨m, rfl⟩ : ∃ m, n = m + 1 := ⟨n - 1, by omega⟩
  have e := scan_members_set l a m rest h (by omega)
  simp only [List.append_assoc, List.cons_append, List.nil_append] at e
  simp only [capsValue, List.append_assoc, List.cons_append, List.nil_append]
  rw [scan.eq_3]
  simp [skipSpace, isSpace, e, noParts]

theorem parse_capsValue (l : List (List Char)) (a : List Char)
    (h : ∀ s ∈ a :: l, ∀ c ∈ s, plainChar c) :
    parse (capsValue (a :: l)) = some (.object [(['s', 'e', 't'], capsArray (a :: l))]) := by
  have hl := length_le_joinChars a l
  have e := scan_members_set l a
    ((' ' :: '"' :: 's' :: 'e' :: 't' :: '"' :: ':' :: ' ' ::
      (capsArray (a :: l) ++ [' ', '\x7d'])).length + 1) [] h
    (by simp [capsArray]; omega)
  exact parse_of_object (capsValue (a :: l)) _ _ '"' _ []
    (by simp [capsValue, skipSpace, isSpace]) (by simp [skipSpace, isSpace]) (by decide) e rfl

theorem decodeCapabilitySet_capsValue (l : List (List Char)) (a : List Char)
    (h : ∀ s ∈ a :: l, ∀ c ∈ s, plainChar c) :
    decodeCapabilitySet (capsValue (a :: l)) = .ok ((a :: l).map String.mk) := by
  have hk : (['s', 'e', 't'].map foldChar = "set".data.map foldChar) := by decide
  simp [decodeCapabilitySet, parse_capsValue l a h, fieldValues, hk, decodeField,
    decodeStrings_capsArray l a h]

theorem scan_members_value (l : List (List Char)) (a : List Char) (n : Nat)
    (h : ∀ s ∈ a :: l, ∀ c ∈ s, plainChar c) (hn : l.length + 6 ≤ n) :
    scan n .members ('"' :: 'v' :: 'a' :: 'l' :: 'u' :: 'e' :: '"' :: ':' :: ' ' ::
        (capsValue (a :: l) ++ ['\n', '\t', '\t', '\x7d'])) =
      some ([(['v', 'a', 'l', 'u', 'e'], capsValue (a :: l))], []) := by
  obtain ⟨m, rfl⟩ : ∃ m, n = m + 1 := ⟨n - 1, by omega⟩
  have hk := scanString_plain ['v', 'a', 'l', 'u', 'e']
    (':' :: ' ' :: (capsValue (a :: l) ++ ['\n', '\t', '\t', '\x7d'])) (by decide)
  have hv := scan_value_capsValue l a m ['\n', '\t', '\t', '\x7d'] h (by omega)
  have hc : consumed (capsValue (a :: l) ++ ['\n', '\t', '\t', '\x7d']) ['\n', '\t', '\t', '\x7d'] =
      capsValue (a :: l) := consumed_append _ _
  have hs : skipSpace (capsValue (a :: l) ++ ['\n', '\t', '\t', '\x7d']) =
      capsValue (a :: l) ++ ['\n', '\t', '\t', '\x7d'] := by
    simp [capsValue, skipSpace, isSpace]
  have hs0 : ∀ X : List Char, skipSpace (':' :: X) = ':' :: X :=
    fun X => skipSpace_cons_of_not_space ':' X (by decide)
  have hs1 : skipSpace (' ' :: (capsValue (a :: l) ++ ['\n', '\t', '\t', '\x7d'])) =
      capsValue (a :: l) ++ ['\n', '\t', '\t', '\x7d'] := by
    rw [skipSpace, if_pos (by decide), hs]
  have hs2 : skipSpace ['\n', '\t', '\t', '\x7d'] = ['\x7d'] := by decide
  rw [scan.eq_5]
  simp only [List.cons_append, List.nil_append] at hk
  simp only [if_true, hk, hs0, hs1, hv, hs2, hc]
  simp

theorem scan_members_name (name : List Char) (l : List (List Char)) (a : List Char) (n : Nat)
    (hname : ∀ c ∈ name, plainChar c)
    (h : ∀ s ∈ a :: l, ∀ c ∈ s, plainChar c) (hn : l.length + 7 ≤ n) :
    scan n .members ('"' :: 'n' :: 'a' :: 'm' :: 'e' :: '"' :: ':' :: ' ' :: '"' ::
      (name ++ '"' :: ',' :: '\n' :: '\t' :: '\t' :: ' ' :: ' ' :: ' ' :: ' ' ::
        '"' :: 'v' :: 'a' :: 'l' :: 'u' :: 'e' :: '"' :: ':' :: ' ' ::
        (capsValue (a :: l) ++ ['\n', '\t', '\t', '\x7d']))) =
      some ([(['n', 'a', 'm', 'e'], quoted name), (['v', 'a', 'l', 'u', 'e'], capsValue (a :: l))],
        []) := by
  obtain ⟨m, rfl⟩ : ∃ m, n = m + 2 := ⟨n - 2, by omega⟩
  have hk := scanString_plain ['n', 'a', 'm', 'e']
    (':' :: ' ' :: '"' :: (name ++ '"' :: ',' :: '\n' :: '\t' :: '\t' :: ' ' :: ' ' :: ' ' :: ' ' ::
        '"' :: 'v' :: 'a' :: 'l' :: 'u' :: 'e' :: '"' :: ':' :: ' ' ::
        (capsValue (a :: l) ++ ['\n', '\t', '\t', '\x7d']))) (by decide)
  have hv := scan_value_string m name (',' :: '\n' :: '\t' :: '\t' :: ' ' :: ' ' :: ' ' :: ' ' ::
        '"' :: 'v' :: 'a' :: 'l' :: 'u' :: 'e' :: '"' :: ':' :: ' ' ::
        (capsValue (a :: l) ++ ['\n', '\t', '\t', '\x7d'])) hname
  have hm := scan_members_value l a (m + 1) h (by omega)
  have hc : consumed ('"' :: (name ++ '"' :: ',' :: '\n' :: '\t' :: '\t' :: ' ' :: ' ' :: ' ' :: ' ' ::
        '"' :: 'v' :: 'a' :: 'l' :: 'u' :: 'e' :: '"' :: ':' :: ' ' ::
        (capsValue (a :: l) ++ ['\n', '\t', '\t', '\x7d'])))
      (',' :: '\n' :: '\t' :: '\t' :: ' ' :: ' ' :: ' ' :: ' ' ::
        '"' :: 'v' :: 'a' :: 'l' :: 'u' :: 'e' :: '"' :: ':' :: ' ' ::
        (capsValue (a :: l) ++ ['\n', '\t', '\t', '\x7d'])) = quoted name := by
    have e : ∀ X : List Char, '"' :: (name ++ '"' :: X) = quoted name ++ X := by
      intro X; simp [quoted]
    rw [e, consumed_append]
  rw [scan.eq_5]
  simp only [List.cons_append, List.nil_append] at hk
  simp only [if_true, hk]
  simp [isSpace, hv, hc, hm, skipSpace]

theorem parse_isolatorText (name : List Char) (l : List (List Char)) (a : List Char)
    (hname : ∀ c ∈ name, plainChar c)
    (h : ∀ s ∈ a :: l, ∀ c ∈ s, plainChar c) :
    parse (isolatorText name (a :: l)) =
      some (.object [(['n', 'a', 'm', 'e'], quoted name),
        (['v', 'a', 'l', 'u', 'e'], capsValue (a :: l))]) := by
  have hl := length_le_joinChars a l
  have e := scan_members_name name l a
    (('\n' :: '\t' :: '\t' :: ' ' :: ' ' :: ' ' :: ' ' ::
    '"' :: 'n' :: 'a' :: 'm' :: 'e' :: '"' :: ':' :: ' ' :: '"' ::
    (name ++ '"' :: ',' :: '\n' :: '\t' :: '\t' :: ' ' :: ' ' :: ' ' :: ' ' ::
      '"' :: 'v' :: 'a' :: 'l' :: 'u' :: 'e' :: '"' :: ':' :: ' ' ::
      (capsValue (a :: l) ++ ['\n', '\t', '\t', '\x7d']))).length + 1) hname h
    (by simp [capsValue, capsArray]; omega)
  exact parse_of_object (isolatorText name (a :: l)) _ _ '"' _ []
    (by simp [isolatorText, skipSpace, isSpace]) (by simp [skipSpace, isSpace]) (by decide) e rfl

theorem splitChars_ne_nil (sep : Char) : ∀ cs : List Char, splitChars sep cs ≠ [] := by
  intro cs
  induction cs with
  | nil => simp [splitChars]
  | cons c cs ih =>
    unfold splitChars
    split
    · simp
    · split <;> simp

theorem splitChars_mem (sep : Char) : ∀ (cs : List Char), ∀ w ∈ splitChars sep cs,
    ∀ c ∈ w, c ∈ cs := by
  intro cs
  induction cs with
  | nil =>
    intro w hw c hc
    simp [splitChars] at hw
    subst hw
    simp at hc
  | cons x xs ih =>
    intro w hw c hc
    unfold splitChars at hw
    split at hw
    · rcases List.mem_cons.mp hw with h1 | h1
      · subst h1
        simp at hc
      · exact List.mem_cons_of_mem x (ih w h1 c hc)
    · split at hw
      · simp at hw
        subst hw
        simp at hc
        subst hc
        exact List.mem_cons_self _ _
      · rename_i w0 ws heq
        rcases List.mem_cons.mp hw with h1 | h1
        · subst h1
          rcases List.mem_cons.mp hc with h2 | h2
          · subst h2
            exact List.mem_cons_self _ _
          · exact List.mem_cons_of_mem x (ih w0 (by rw [heq]; exact List.mem_cons_self _ _) c h2)
        · exact List.mem_cons_of_mem x (ih w (by rw [heq]; exact List.mem_cons_of_mem _ h1) c hc)

theorem getIsolatorStr_data (name : String) (l : List String) :
    (getIsolatorStr name ("\"set\": [\"" ++ Join l "\", \"" ++ "\"]")).data =
      isolatorText name.data (l.map String.data) := by
  simp only [getIsolatorStr, Join, String.data_append, isolatorText, capsValue, capsArray]
  simp [capsSep]

theorem capsValue_string (l : List String) :
    String.mk (capsValue (l.map String.data)) =
      "\x7b \"set\": [\"" ++ Join l "\", \"" ++ "\"] \x7d" := by
  apply String.ext
  simp only [Join, String.data_append, capsValue, capsArray]
  simp [capsSep]

theorem map_mk_data (l : List String) : (l.map String.data).map String.mk = l := by
  induction l with
  | nil => rfl
  | cons x xs ih => simp [ih]

theorem fieldValues_first (k1 k2 v1 v2 : List Char) (field : String)
    (h1 : k1.map foldChar = field.data.map foldChar)
    (h2 : ¬ k2.map foldChar = field.data.map foldChar) :
    fieldValues [(k1, v1), (k2, v2)] field = [v1] := by
  simp [fieldValues, List.filter_cons, h1, h2]

theorem fieldValues_second (k1 k2 v1 v2 : List Char) (field : String)
    (h1 : ¬ k1.map foldChar = field.data.map foldChar)
    (h2 : k2.map foldChar = field.data.map foldChar) :
    fieldValues [(k1, v1), (k2, v2)] field = [v2] := by
  simp [fieldValues, List.filter_cons, h1, h2]

theorem Isolator_UnmarshalJSON_caps (a : String) (l : List String)
    (h : ∀ s ∈ a :: l, ∀ c ∈ s.data, plainChar c) :
    Isolator.UnmarshalJSON (getIsolatorStr LinuxCapabilitiesRetainSetName
        ("\"set\": [\"" ++ Join (a :: l) "\", \"" ++ "\"]")) =
      .ok { Name := LinuxCapabilitiesRetainSetName,
            ValueRaw := some ("\x7b \"set\": [\"" ++ Join (a :: l) "\", \"" ++ "\"] \x7d"),
            value := some (a :: l) } := by
  have h1 : ∀ s ∈ a.data :: l.map String.data, ∀ c ∈ s, plainChar c := by
    intro s hs c hc
    rcases List.mem_cons.mp hs with e | e
    · subst e
      exact h a (List.mem_cons_self _ _) c hc
    · obtain ⟨t, ht, rfl⟩ := List.mem_map.mp e
      exact h t (List.mem_cons_of_mem _ ht) c hc
  have hn : ∀ c ∈ LinuxCapabilitiesRetainSetName.data, plainChar c := by decide
  have hp := parse_isolatorText LinuxCapabilitiesRetainSetName.data (l.map String.data) a.data hn h1
  have hq := parse_quoted LinuxCapabilitiesRetainSetName.data hn
  have hd := decodeCapabilitySet_capsValue (l.map String.data) a.data h1
  have hk1 : (['n', 'a', 'm', 'e'].map foldChar = "name".data.map foldChar) := by decide
  have hk2 : ¬ (['v', 'a', 'l', 'u', 'e'].map foldChar = "name".data.map foldChar) := by decide
  have hk3 : ¬ (['n', 'a', 'm', 'e'].map foldChar = "value".data.map foldChar) := by decide
  have hk4 : (['v', 'a', 'l', 'u', 'e'].map foldChar = "value".data.map foldChar) := by decide
  have hok : NewACName LinuxCapabilitiesRetainSetName = .ok LinuxCapabilitiesRetainSetName := by
    decide
  have hv := capsValue_string (a :: l)
  have hmk : String.mk LinuxCapabilitiesRetainSetName.data = LinuxCapabilitiesRetainSetName := rfl
  have hmap : List.map String.mk (a.data :: List.map String.data l) = a :: l :=
    map_mk_data (a :: l)
  unfold Isolator.UnmarshalJSON
  rw [getIsolatorStr_data]
  simp only [List.map_cons] at hv hmap ⊢
  rw [hp]
  have fv1 := fieldValues_first ['n', 'a', 'm', 'e'] ['v', 'a', 'l', 'u', 'e']
    (quoted LinuxCapabilitiesRetainSetName.data) (capsValue (a.data :: List.map String.data l))
    "name" hk1 hk2
  have fv2 := fieldValues_second ['n', 'a', 'm', 'e'] ['v', 'a', 'l', 'u', 'e']
    (quoted LinuxCapabilitiesRetainSetName.data) (capsValue (a.data :: List.map String.data l))
    "value" hk3 hk4
  simp only [fv1, fv2, decodeField, decodeACName, hq, hmk, hok, true_or, if_true,
    List.getLast?_singleton, hd, List.map_cons, hv, hmap]

theorem Split_plain (caps : String) (h : ∀ c ∈ caps.data, plainChar c) :
    ∃ (a : String) (l : List String), Split caps ',' = a :: l ∧
      ∀ s ∈ a :: l, ∀ c ∈ s.data, plainChar c := by
  have hm := splitChars_mem ',' caps.data
  cases hs : splitChars ',' caps.data with
  | nil => exact absurd hs (splitChars_ne_nil ',' caps.data)
  | cons a l =>
    refine ⟨String.mk a, l.map String.mk, by simp [Split, hs], ?_⟩
    intro s hs1 c hc
    have hs2 : s.data ∈ splitChars ',' caps.data := by
      rw [hs]
      rcases List.mem_cons.mp hs1 with e | e
      · subst e
        exact List.mem_cons_self _ _
      · obtain ⟨t, ht, rfl⟩ := List.mem_map.mp e
        exact List.mem_cons_of_mem _ ht
    exact h c (hm s.data hs2 c hc)

theorem GetByName_none (is : List Isolator) (name : String)
    (h : ∀ i ∈ is, i.Name ≠ name) : GetByName is name = none := by
  unfold GetByName
  rw [List.find?_eq_none]
  intro i hi
  simpa using h i (by simpa using hi)

theorem patchManifestCaps_adds (fl : Flags) (im : ImageManifest) (app : App)
    (happ : im.App = some app)
    (hnone : ∀ i ∈ app.Isolators, i.Name ≠ LinuxCapabilitiesRetainSetName)
    (hcaps : fl.flagCaps ≠ "")
    (hplain : ∀ c ∈ fl.flagCaps.data, plainChar c) :
    patchManifestCaps fl im =
      ({ im with App := some { app with Isolators := app.Isolators ++
          [{ Name := LinuxCapabilitiesRetainSetName,
             ValueRaw := some ("\x7b \"set\": [\"" ++ Join (Split fl.flagCaps ',') "\", \"" ++
               "\"] \x7d"),
             value := some (Split fl.flagCaps ',') }] } }, none) := by
  obtain ⟨a, l, hs, hp⟩ := Split_plain fl.flagCaps hplain
  have hu := Isolator_UnmarshalJSON_caps a l hp
  have hg := GetByName_none app.Isolators LinuxCapabilitiesRetainSetName hnone
  simp [patchManifestCaps, hcaps, happ, hg, hs, hu]

/-! ## The claims -/

/-- C1: when `aciPatch` succeeds, the output has as many entries as the input,
with the same names in the same order, and every entry whose cleaned name is
not `manifest` is in the output at its position with the header and payload
it had in the input. -/
theorem aciPatch_preserves_entries (c : Codec) (fl : Flags) (stdin out : List Entry)
    (h : aciPatch c fl stdin = (out, none)) :
    out.length = stdin.length ∧
    out.map (fun e => e.hdr.Name) = stdin.map (fun e => e.hdr.Name) ∧
    ∀ (i : Nat) (hi : i < stdin.length),
      Clean stdin[i].hdr.Name ≠ manifestFile → out[i]? = some stdin[i] := by
  have hf := aciPatch_success c fl stdin out h
  refine ⟨hf.length_eq.symm, forall₂_written_names c fl stdin out hf, ?_⟩
  intro i hi hne
  obtain ⟨e1, h1, h2⟩ := forall₂_written_getElem c fl stdin out hf i hi
  rw [written_other c fl _ hne] at h2
  cases h2
  exact h1

/-- C2: take an entry whose cleaned name is `manifest`, whose payload decodes to
a document and on which `patchManifest` succeeds.  Whatever entry `aciPatch`
writes at that position carries the encoding of the patched document as
payload, the length of that encoding as declared size, and every other header
field of the input header; and `aciPatch` does write that entry when the
entries before it are processed without error and the patched document
encodes. -/
theorem aciPatch_manifest_entry (c : Codec) (fl : Flags) (stdin : List Entry) (i : Nat)
    (hi : i < stdin.length) (im im1 : ImageManifest)
    (hname : Clean stdin[i].hdr.Name = manifestFile)
    (hdec : c.UnmarshalJSON stdin[i].payload = .ok im)
    (hpatch : patchManifest fl im = (im1, none)) :
    (∀ e1 : Entry, (aciPatch c fl stdin).1[i]? = some e1 →
      ∃ new_bytes, c.MarshalJSON im1 = .ok new_bytes ∧
        e1 = { hdr := { stdin[i].hdr with Size := (new_bytes.length : Int) },
               payload := new_bytes }) ∧
    (∀ (pre1 : List Entry) (new_bytes : List UInt8),
      aciPatch c fl (stdin.take i) = (pre1, none) → c.MarshalJSON im1 = .ok new_bytes →
      (aciPatch c fl stdin).1[i]? =
        some { hdr := { stdin[i].hdr with Size := (new_bytes.length : Int) },
               payload := new_bytes }) := by
  constructor
  · intro e1 h
    obtain ⟨_, hw⟩ := aciPatch_written_at c fl stdin i e1 h
    cases henc : c.MarshalJSON im1 with
    | error err => simp [written, hname, hdec, hpatch, henc] at hw
    | ok new_bytes =>
      refine ⟨new_bytes, rfl, ?_⟩
      simp only [written, hname, if_true, hdec, hpatch, henc, Except.ok.injEq] at hw
      exact hw.symm
  · intro pre1 new_bytes hpre henc
    have hw : written c fl stdin[i] =
        .ok { hdr := { stdin[i].hdr with Size := (new_bytes.length : Int) },
              payload := new_bytes } := by
      simp [written, hname, hdec, hpatch, henc]
    have hlen : pre1.length = i := by
      have := (aciPatch_success c fl (stdin.take i) pre1 hpre).length_eq
      rw [List.length_take] at this
      omega
    have hsplit : stdin = stdin.take i ++ stdin[i] :: stdin.drop (i + 1) := by
      rw [List.getElem_cons_drop stdin i hi, List.take_append_drop]
    have hrun : aciPatch c fl stdin =
        (pre1 ++ (aciPatch c fl (stdin[i] :: stdin.drop (i + 1))).1,
          (aciPatch c fl (stdin[i] :: stdin.drop (i + 1))).2) := by
      conv => lhs; rw [hsplit]
      exact aciPatch_append c fl (stdin.take i) pre1 _ hpre
    rw [hrun, aciPatch_cons_ok c fl stdin[i] _ _ hw]
    exact getElem?_append_cons_of_length pre1 _ _ i hlen

/-- C4: for a name that `NewACName` accepts, `patchManifest` with only the name
edit requested succeeds and leaves the document with the requested string as
its name and every other field as it was. -/
theorem patchManifest_name_only (im : ImageManifest) (s n : String)
    (h : NewACName s = .ok n) :
    patchManifest { flagName := s, flagCaps := "" } im = ({ im with Name := s }, none) := by
  obtain ⟨hn, hs⟩ := NewACName_ok s n h
  subst hn
  simp [patchManifest, patchManifestCaps, hs, h]

/-- C5, as amended: when the app already has an isolator with the reserved
Linux-capabilities-retain-set name, the capability edit is requested and the
name edit is absent or valid, `patchManifest` fails with the error "isolator
already exists" and the app, with its isolator collection, is as it was. -/
theorem patchManifest_isolator_conflict (fl : Flags) (im : ImageManifest) (app : App)
    (happ : im.App = some app)
    (hex : ∃ i ∈ app.Isolators, i.Name = LinuxCapabilitiesRetainSetName)
    (hcaps : fl.flagCaps ≠ "")
    (hname : fl.flagName = "" ∨ ∃ n, NewACName fl.flagName = .ok n) :
    (patchManifest fl im).2 = some (.errorf "isolator already exists") ∧
    (patchManifest fl im).1.App = some app := by
  rcases hname with h0 | ⟨n, hn⟩
  · rw [patchManifest_of_empty fl im h0, patchManifestCaps_conflict fl im app happ hex hcaps]
    exact ⟨rfl, happ⟩
  · rw [patchManifest_of_ok fl im n hn,
      patchManifestCaps_conflict fl { im with Name := fl.flagName } app happ hex hcaps]
    exact ⟨rfl, happ⟩

/-- C7, as amended: for a non-empty name that `NewACName` rejects,
`patchManifest` returns the error of `NewACName`, whether or not the
capability edit is requested, and the document is as it was. -/
theorem patchManifest_invalid_name (fl : Flags) (im : ImageManifest) (err : Error)
    (hne : fl.flagName ≠ "") (h : NewACName fl.flagName = .error err) :
    patchManifest fl im = (im, some err) :=
  patchManifest_of_error fl im err hne h

/-- C8, as amended: when `patchManifest` returns an error, every field of the
document other than the name is as it was; when the name edit is absent or the
name is rejected, the name is as it was too; when the name edit was requested
with an accepted name, the error comes from the capability edit and the name
is already the requested one. -/
theorem patchManifest_error_frame (fl : Flags) (im : ImageManifest) (err : Error)
    (h : (patchManifest fl im).2 = some err) :
    (patchManifest fl im).1 = { im with Name := (patchManifest fl im).1.Name } ∧
    ((fl.flagName = "" ∨ ∃ e, NewACName fl.flagName = .error e) →
      (patchManifest fl im).1 = im) ∧
    (∀ n, NewACName fl.flagName = .ok n →
      (patchManifest fl im).1 = { im with Name := fl.flagName } ∧ fl.flagCaps ≠ "") := by
  by_cases hn : fl.flagName = ""
  · have h0 : (patchManifestCaps fl im).1 = im := by
      rw [patchManifest_of_empty fl im hn] at h
      exact (patchManifestCaps_error fl im (by rw [h]; simp)).1
    rw [patchManifest_of_empty fl im hn, h0]
    refine ⟨rfl, fun _ => rfl, ?_⟩
    intro n hok
    exact absurd hn (NewACName_ok _ _ hok).2
  · cases hok : NewACName fl.flagName with
    | error e =>
      rw [patchManifest_of_error fl im e hn hok]
      refine ⟨rfl, fun _ => rfl, ?_⟩
      intro n hok1
      cases hok1
    | ok n =>
      rw [patchManifest_of_ok fl im n hok] at h ⊢
      obtain ⟨h2, h3⟩ := patchManifestCaps_error fl _ (by rw [h]; simp)
      rw [h2]
      refine ⟨rfl, ?_, fun _ _ => ⟨rfl, h3⟩⟩
      intro hc
      rcases hc with h4 | ⟨e, he⟩
      · exact absurd h4 hn
      · cases he

/-- C9, as amended: when `aciPatch` succeeds, at most as many output entries
differ from the input entry at the same position as the archive has entries
whose cleaned name is `manifest`; with one such entry, at most one. -/
theorem aciPatch_differing_le (c : Codec) (fl : Flags) (stdin out : List Entry)
    (h : aciPatch c fl stdin = (out, none)) :
    differing stdin out ≤ manifestCount stdin :=
  forall₂_written_differing c fl stdin out (aciPatch_success c fl stdin out h)

/-- C10: on an archive without an entry whose cleaned name is `manifest`,
`aciPatch` succeeds for every setting of the flags and writes the input
entries unchanged, in order. -/
theorem aciPatch_identity_without_manifest (c : Codec) (fl : Flags) (stdin : List Entry)
    (h : ∀ e ∈ stdin, Clean e.hdr.Name ≠ manifestFile) :
    aciPatch c fl stdin = (stdin, none) :=
  aciPatch_no_manifest c fl stdin h

/-- C1, an instance: renaming the manifest of a two-entry archive. -/
theorem aciPatch_preserves_entries_witness :
    aciPatch appcCodec { flagName := "example.com/new", flagCaps := "" } sampleArchive =
      (sampleRenamed, none) ∧
    (sampleRenamed.length = sampleArchive.length ∧
     sampleRenamed.map (fun e => e.hdr.Name) = sampleArchive.map (fun e => e.hdr.Name) ∧
     ∀ (i : Nat) (hi : i < sampleArchive.length),
       Clean sampleArchive[i].hdr.Name ≠ manifestFile → sampleRenamed[i]? = some sampleArchive[i]) :=
  ⟨by decide, aciPatch_preserves_entries appcCodec
    { flagName := "example.com/new", flagCaps := "" } sampleArchive sampleRenamed (by decide)⟩

/-- C2, an instance: the manifest comes second in the archive and is
renamed. -/
theorem aciPatch_manifest_entry_witness :
    (aciPatch appcCodec { flagName := "example.com/new", flagCaps := "" } secondManifest).1[1]? =
      some { hdr := { secondManifest[1].hdr with Size := (renamedManifestJSON.length : Int) },
             payload := renamedManifestJSON } :=
  (aciPatch_manifest_entry appcCodec { flagName := "example.com/new", flagCaps := "" }
    secondManifest 1 (by decide) bareManifest { bareManifest with Name := "example.com/new" }
    (by decide) (by decide) (by decide)).2
    [fileEntry "rootfs/bin/sh" binaryPayload] renamedManifestJSON (by decide) (by decide)

/-- C4, an instance: the name `example.com/app`. -/
theorem patchManifest_name_only_witness :
    NewACName "example.com/app" = .ok "example.com/app" ∧
    patchManifest { flagName := "example.com/app", flagCaps := "" } appManifest =
      ({ appManifest with Name := "example.com/app" }, none) :=
  ⟨by decide, patchManifest_name_only appManifest "example.com/app" "example.com/app" (by decide)⟩

/-- C5, an instance: a manifest that already retains `CAP_KILL`. -/
theorem patchManifest_isolator_conflict_witness :
    (patchManifest { flagName := "", flagCaps := "CAP_SYS_ADMIN,CAP_NET_ADMIN" } retainManifest).2 =
      some (.errorf "isolator already exists") ∧
    (patchManifest { flagName := "", flagCaps := "CAP_SYS_ADMIN,CAP_NET_ADMIN" }
      retainManifest).1.App = retainManifest.App :=
  patchManifest_isolator_conflict { flagName := "", flagCaps := "CAP_SYS_ADMIN,CAP_NET_ADMIN" }
    retainManifest _ rfl ⟨killIsolator, by decide, by decide⟩ (by decide) (Or.inl rfl)

/-- C5 as stated fails: with an invalid name requested together with the
capability edit, on a manifest whose app already has the reserved isolator,
`patchManifest` fails with the error of the name check, not with "isolator
already exists"; the document is as it was. -/
theorem patchManifest_isolator_conflict_counterexample :
    retainManifest.App = some { Exec := ["/bin/sh"], User := "0", Group := "0",
                                Isolators := [killIsolator], Other := [] } ∧
    killIsolator.Name = LinuxCapabilitiesRetainSetName ∧
    patchManifest { flagName := "Bad Name", flagCaps := "CAP_SYS_ADMIN,CAP_NET_ADMIN" }
      retainManifest = (retainManifest, some invalidCharError) ∧
    invalidCharError ≠ .errorf "isolator already exists" := by
  decide

/-- C6, as amended: when the first entry whose cleaned name is `manifest`
decodes to a document without an app, the capability edit is requested and
the name edit is absent or valid, `patchManifest` fails with the error "no
app in the manifest" and `aciPatch` returns it having written exactly the
entries before the manifest entry. -/
theorem aciPatch_missing_app (c : Codec) (fl : Flags) (pre post : List Entry) (m : Entry)
    (im : ImageManifest)
    (hpre : ∀ e ∈ pre, Clean e.hdr.Name ≠ manifestFile)
    (hname : Clean m.hdr.Name = manifestFile)
    (hdec : c.UnmarshalJSON m.payload = .ok im)
    (happ : im.App = none)
    (hcaps : fl.flagCaps ≠ "")
    (hnm : fl.flagName = "" ∨ ∃ n, NewACName fl.flagName = .ok n) :
    (patchManifest fl im).2 = some (.errorf "no app in the manifest") ∧
    aciPatch c fl (pre ++ m :: post) = (pre, some (.errorf "no app in the manifest")) := by
  have hp : ∃ im1, patchManifest fl im = (im1, some (.errorf "no app in the manifest")) := by
    rcases hnm with h0 | ⟨n, hn⟩
    · exact ⟨im, by rw [patchManifest_of_empty fl im h0, patchManifestCaps_no_app fl im happ hcaps]⟩
    · exact ⟨_, by rw [patchManifest_of_ok fl im n hn,
        patchManifestCaps_no_app fl { im with Name := fl.flagName } happ hcaps]⟩
  obtain ⟨im1, hp⟩ := hp
  have hw : written c fl m = .error (.errorf "no app in the manifest") := by
    simp [written, hname, hdec, hp]
  refine ⟨by rw [hp], ?_⟩
  rw [aciPatch_append c fl pre pre (m :: post) (aciPatch_no_manifest c fl pre hpre),
    aciPatch_cons_error c fl m post _ hw]
  simp

/-- C6, an instance: the manifest without an app comes second. -/
theorem aciPatch_missing_app_witness :
    (patchManifest { flagName := "example.com/new", flagCaps := "CAP_KILL" } bareManifest).2 =
      some (.errorf "no app in the manifest") ∧
    aciPatch appcCodec { flagName := "example.com/new", flagCaps := "CAP_KILL" }
      ([fileEntry "rootfs/bin/sh" binaryPayload] ++
        fileEntry "manifest" bareManifestJSON :: [fileEntry "rootfs/etc/hosts" []]) =
      ([fileEntry "rootfs/bin/sh" binaryPayload], some (.errorf "no app in the manifest")) :=
  aciPatch_missing_app appcCodec { flagName := "example.com/new", flagCaps := "CAP_KILL" }
    [fileEntry "rootfs/bin/sh" binaryPayload] [fileEntry "rootfs/etc/hosts" []]
    (fileEntry "manifest" bareManifestJSON) bareManifest
    (by decide) (by decide) (by decide) rfl (by decide)
    (Or.inr ⟨"example.com/new", by decide⟩)

/-- C6 as stated fails: with an invalid name and the capability edit both
requested, on a manifest without an app, `patchManifest` fails with the error
of the name check, not with "no app in the manifest", and `aciPatch` returns
that error. -/
theorem aciPatch_missing_app_counterexample :
    appcCodec.UnmarshalJSON bareManifestJSON = .ok bareManifest ∧
    bareManifest.App = none ∧
    (patchManifest { flagName := "Bad Name", flagCaps := "CAP_KILL" } bareManifest).2 =
      some invalidCharError ∧
    invalidCharError ≠ .errorf "no app in the manifest" ∧
    aciPatch appcCodec { flagName := "Bad Name", flagCaps := "CAP_KILL" }
      [fileEntry "manifest" bareManifestJSON] = ([], some invalidCharError) := by
  decide

/-- C7, an instance: an upper-case letter in the name, capability edit
requested too. -/
theorem patchManifest_invalid_name_witness :
    NewACName "Example" = .error invalidCharError ∧
    patchManifest { flagName := "Example", flagCaps := "CAP_KILL" } appManifest =
      (appManifest, some invalidCharError) :=
  ⟨by decide, patchManifest_invalid_name { flagName := "Example", flagCaps := "CAP_KILL" }
    appManifest invalidCharError (by decide) (by decide)⟩

/-- C7 as stated fails for the empty string: `NewACName` rejects it, but
`patchManifest` takes an empty `-name` as no name edit; it returns no error,
and the capability edit, when requested, is carried out. -/
theorem patchManifest_invalid_name_counterexample :
    NewACName "" = .error (.acName "ACName cannot be empty") ∧
    patchManifest { flagName := "", flagCaps := "" } bareManifest = (bareManifest, none) ∧
    patchManifest { flagName := "", flagCaps := "CAP_KILL" } appManifest =
      ({ appManifest with
          App := some { Exec := ["/bin/sh"], User := "0", Group := "0", Other := [],
                        Isolators := [{ Name := LinuxCapabilitiesRetainSetName,
                                        ValueRaw := some "\x7b \"set\": [\"CAP_KILL\"] \x7d",
                                        value := some ["CAP_KILL"] }] } }, none) := by
  decide

/-- C8, an instance: a valid name and the capability edit on a manifest without
an app. -/
theorem patchManifest_error_frame_witness :
    (patchManifest { flagName := "example.com/new", flagCaps := "CAP_KILL" } bareManifest).2 =
      some (.errorf "no app in the manifest") ∧
    (patchManifest { flagName := "example.com/new", flagCaps := "CAP_KILL" } bareManifest).1 =
      { bareManifest with Name := "example.com/new" } ∧
    "CAP_KILL" ≠ "" :=
  ⟨by decide,
   (patchManifest_error_frame { flagName := "example.com/new", flagCaps := "CAP_KILL" }
      bareManifest (.errorf "no app in the manifest") (by decide)).2.2
      "example.com/new" (by decide)⟩

/-- C8 as stated fails: with a valid name and the capability edit requested on
a manifest without an app, `patchManifest` returns an error and leaves the
document with its name replaced. -/
theorem patchManifest_error_frame_counterexample :
    patchManifest { flagName := "example.com/new", flagCaps := "CAP_KILL" } bareManifest =
      ({ bareManifest with Name := "example.com/new" }, some (.errorf "no app in the manifest")) ∧
    (patchManifest { flagName := "example.com/new", flagCaps := "CAP_KILL" } bareManifest).1 ≠
      bareManifest := by
  decide

/-- C9, an instance: an archive with one manifest. -/
theorem aciPatch_differing_le_witness :
    aciPatch appcCodec { flagName := "example.com/new", flagCaps := "" } sampleArchive =
      (sampleRenamed, none) ∧
    differing sampleArchive sampleRenamed ≤ manifestCount sampleArchive :=
  ⟨by decide, aciPatch_differing_le appcCodec
    { flagName := "example.com/new", flagCaps := "" } sampleArchive sampleRenamed (by decide)⟩

/-- C9 as stated fails: on an archive with two entries whose cleaned name is
`manifest`, `aciPatch` succeeds and both output entries differ from the input
entries at their positions. -/
theorem aciPatch_differing_counterexample :
    aciPatch appcCodec { flagName := "example.com/new", flagCaps := "" } twoManifests =
      ([fileEntry "manifest" renamedManifestJSON, fileEntry "./manifest" renamedManifestJSON],
        none) ∧
    differing twoManifests
      [fileEntry "manifest" renamedManifestJSON, fileEntry "./manifest" renamedManifestJSON] = 2 := by
  decide

/-- C10, an instance: no manifest at the top level, an invalid name and a
capability edit requested. -/
theorem aciPatch_identity_without_manifest_witness :
    (∀ e ∈ noManifest, Clean e.hdr.Name ≠ manifestFile) ∧
    aciPatch appcCodec { flagName := "Bad Name", flagCaps := "\"" } noManifest =
      (noManifest, none) :=
  ⟨by decide, aciPatch_identity_without_manifest appcCodec
    { flagName := "Bad Name", flagCaps := "\"" } noManifest (by decide)⟩

/-- C3, as amended: when the app is present and has no isolator with the
reserved Linux-capabilities-retain-set name, and the capability string is not
empty and has no double quote, backslash or control character (the name edit
being absent or valid), `patchManifest` succeeds and the isolator collection
is the original one followed by one new isolator with the reserved name whose
value set is the list of the comma-separated members in the order given. -/
theorem patchManifest_adds_isolator (fl : Flags) (im : ImageManifest) (app : App)
    (happ : im.App = some app)
    (hnone : ∀ i ∈ app.Isolators, i.Name ≠ LinuxCapabilitiesRetainSetName)
    (hcaps : fl.flagCaps ≠ "")
    (hplain : ∀ c ∈ fl.flagCaps.data, plainChar c)
    (hname : fl.flagName = "" ∨ ∃ n, NewACName fl.flagName = .ok n) :
    (patchManifest fl im).2 = none ∧
    (patchManifest fl im).1.App = some { app with Isolators := app.Isolators ++
      [{ Name := LinuxCapabilitiesRetainSetName,
         ValueRaw := some ("\x7b \"set\": [\"" ++ Join (Split fl.flagCaps ',') "\", \"" ++
           "\"] \x7d"),
         value := some (Split fl.flagCaps ',') }] } := by
  rcases hname with h0 | ⟨n, hn⟩
  · rw [patchManifest_of_empty fl im h0, patchManifestCaps_adds fl im app happ hnone hcaps hplain]
    exact ⟨rfl, rfl⟩
  · rw [patchManifest_of_ok fl im n hn,
      patchManifestCaps_adds fl { im with Name := fl.flagName } app happ hnone hcaps hplain]
    exact ⟨rfl, rfl⟩

/-- C3, an instance: the capabilities `CAP_SYS_ADMIN,CAP_NET_ADMIN` added to an
app without isolators. -/
theorem patchManifest_adds_isolator_witness :
    Split "CAP_SYS_ADMIN,CAP_NET_ADMIN" ',' = ["CAP_SYS_ADMIN", "CAP_NET_ADMIN"] ∧
    ((patchManifest { flagName := "", flagCaps := "CAP_SYS_ADMIN,CAP_NET_ADMIN" }
        appManifest).2 = none ∧
     (patchManifest { flagName := "", flagCaps := "CAP_SYS_ADMIN,CAP_NET_ADMIN" }
        appManifest).1.App =
      some { Exec := ["/bin/sh"], User := "0", Group := "0", Other := [],
             Isolators := [] ++
               [{ Name := LinuxCapabilitiesRetainSetName,
                  ValueRaw := some ("\x7b \"set\": [\"" ++
                    Join (Split "CAP_SYS_ADMIN,CAP_NET_ADMIN" ',') "\", \"" ++ "\"] \x7d"),
                  value := some (Split "CAP_SYS_ADMIN,CAP_NET_ADMIN" ',') }] }) :=
  ⟨by decide,
   patchManifest_adds_isolator { flagName := "", flagCaps := "CAP_SYS_ADMIN,CAP_NET_ADMIN" }
    appManifest { Exec := ["/bin/sh"], User := "0", Group := "0", Isolators := [], Other := [] }
    rfl (by decide) (by decide) (by decide) (Or.inl rfl)⟩

/-- C3 as stated fails: for the capability string made of one double quote the
interpolated isolator string is not valid JSON and `patchManifest` returns the
decoder's error, leaving the app without the isolator; for a capability
written with a backslash escape the call succeeds with a value set that is
not the list of the members given. -/
theorem patchManifest_adds_isolator_counterexample :
    appManifest.App = some { Exec := ["/bin/sh"], User := "0", Group := "0", Isolators := [],
                             Other := [] } ∧
    patchManifest { flagName := "", flagCaps := "\"" } appManifest =
      (appManifest, some (.json "invalid character")) ∧
    Split "CAP_KILL\\n" ',' = ["CAP_KILL\\n"] ∧
    (patchManifest { flagName := "", flagCaps := "CAP_KILL\\n" } appManifest).1.App =
      some { Exec := ["/bin/sh"], User := "0", Group := "0", Other := [],
             Isolators := [{ Name := LinuxCapabilitiesRetainSetName,
                             ValueRaw := some "\x7b \"set\": [\"CAP_KILL\\n\"] \x7d",
                             value := some ["CAP_KILL\n"] }] } := by
  decide

end Acipatch
